import Mathlib

/-!
# Sequence primitives of `pagerank-seq-update` (`src/_vector.hxx`, `src/duplicate.hxx`)

A shallow embedding of the vector helpers of `_vector.hxx` and of the graph
duplication of `duplicate.hxx`:

* `std::vector<T>` is a `List T`, `vector2d<T>` is a `List (List T)`;
* an index (`size_t`, or the integer type `K` of an index vector) is a `Nat`;
* a procedure that writes through a reference returns the new value of what
  it writes;
* an access outside the bounds of a vector is undefined behaviour in C++; the
  embedding makes it explicit as `Fault.outOfRange`; `a.back()` on an empty
  vector is such an access;
* the `while` loop of `reorderDirty` is given a budget of swaps (`fuel`);
  spending it all is `Fault.outOfFuel`;
* a graph is known to `duplicate.hxx` only through its traversal and mutation
  methods: the source is what its traversals offer, the destination is the
  effect of its three mutators, and the calls it receives can be recorded.
-/

namespace Pagerank

/-- Ways in which a run of the embedded code can fail to produce a value. -/
inductive Fault where
  /-- An element access outside the bounds of a vector. -/
  | outOfRange
  /-- The swap budget of a loop was used up before the loop ended. -/
  | outOfFuel
  deriving DecidableEq, Repr

deriving instance DecidableEq for Except

/-! ## SIZE -/

/-- `size(x)`: the number of elements of a vector. -/
def size {α : Type} (x : List α) : Nat :=
  x.length

/-- `size2d(x)`: `a = 0; for v in x: a += size(v)`. -/
def size2d {α : Type} (x : List (List α)) : Nat :=
  x.foldl (fun a v => a + size v) 0

/-! ## REORDER -/

/-- `std::swap(v[a], v[b])` on a vector: both positions are read, then each
receives the other's value. -/
def swapAt {α : Type} (v : List α) (a b : Nat) : Except Fault (List α) :=
  match v[a]?, v[b]? with
  | some va, some vb => .ok ((v.set a vb).set b va)
  | _, _ => .error .outOfRange

/-- The inner loop of `reorderDirty` at position `i`:
`while (is[i] != is[is[i]]) { swap(x[is[i]], x[is[is[i]]]); swap(is[i], is[is[i]]); }`.
Each swap costs one unit of `fuel`; the unspent fuel is returned. -/
def reorderWhile {α : Type} (i : Nat) :
    Nat → List α → List Nat → Except Fault (List α × List Nat × Nat)
  | fuel, x, is =>
    match is[i]? with
    | none => .error .outOfRange
    | some j =>
      match is[j]? with
      | none => .error .outOfRange
      | some k =>
        if j ≠ k then
          match fuel with
          | 0 => .error .outOfFuel
          | fuel + 1 =>
            match swapAt x j k, swapAt is i j with
            | .ok x1, .ok is1 => reorderWhile i fuel x1 is1
            | _, _ => .error .outOfRange
        else .ok (x, is, fuel)

/-- The outer loop of `reorderDirty`, `for (i; i<N; ++i)`, with `n` iterations
left to run from position `i`. -/
def reorderFor {α : Type} :
    Nat → Nat → Nat → List α → List Nat → Except Fault (List α × List Nat × Nat)
  | 0, _, fuel, x, is => .ok (x, is, fuel)
  | n + 1, i, fuel, x, is =>
    match reorderWhile i fuel x is with
    | .ok (x1, is1, fuel1) => reorderFor n (i + 1) fuel1 x1 is1
    | .error e => .error e

/-- `reorderDirty(x, is)`: runs the outer loop for `N = x.size()` positions and
leaves both `x` and `is` modified. -/
def reorderDirty {α : Type} (fuel : Nat) (x : List α) (is : List Nat) :
    Except Fault (List α × List Nat) :=
  match reorderFor x.length 0 fuel x is with
  | .ok (x1, is1, _) => .ok (x1, is1)
  | .error e => .error e

/-- `reorder(x, is)`: `is` is taken by value, so only `x` is modified. -/
def reorder {α : Type} (fuel : Nat) (x : List α) (is : List Nat) : Except Fault (List α) :=
  match reorderDirty fuel x is with
  | .ok (x1, _) => .ok x1
  | .error e => .error e

/-! ## PARTITION-VALUES and JOIN -/

/-- Modelled from the spec: `copyAppend(x, b)` is called by `_vector.hxx` but
defined in a file that is not part of the sources at hand; the spec describes
it as appending the elements of `x`, in order, to the end of `b`. -/
def copyAppend {α : Type} (x : List α) (b : List α) : List α :=
  b ++ x

/-- One iteration of the loop of `partitionValues` for the element `v`:
`auto& b = a.back(); if (a.empty() || !fn(b, v)) a.push_back({v}); else b.push_back(v);`.
The first statement calls `a.back()` before `a.empty()` is tested: on an empty
`a` this is an access outside the vector, `Fault.outOfRange`. -/
def partitionStep {α : Type} (fn : List α → α → Bool) (a : List (List α)) (v : α) :
    Except Fault (List (List α)) :=
  match a.getLast? with
  | none => .error .outOfRange
  | some b =>
    if a.isEmpty || !fn b v then .ok (a ++ [[v]]) else .ok (a.dropLast ++ [b ++ [v]])

/-- `partitionValues(x, a, fn)`: runs the loop body over the elements of `x`,
left to right, on the accumulator `a`. -/
def partitionValues {α : Type} :
    List α → List (List α) → (List α → α → Bool) → Except Fault (List (List α))
  | [], a, _ => .ok a
  | v :: x, a, fn =>
    match partitionStep fn a v with
    | .ok a1 => partitionValues x a1 fn
    | .error e => .error e

/-- `partitionValuesVector(x, fn)`: `partitionValues` on an empty accumulator. -/
def partitionValuesVector {α : Type} (x : List α) (fn : List α → α → Bool) :
    Except Fault (List (List α)) :=
  partitionValues x [] fn

/-- One iteration of the loop of `joinIf` for the group `x`:
`auto& b = a.back(); if (a.empty() || !fn(b, x)) a.push_back(x); else copyAppend(x, b);`.
The first statement calls `a.back()` before `a.empty()` is tested: on an empty
`a` this is an access outside the vector, `Fault.outOfRange`. -/
def joinStep {α : Type} (fn : List α → List α → Bool) (a : List (List α)) (x : List α) :
    Except Fault (List (List α)) :=
  match a.getLast? with
  | none => .error .outOfRange
  | some b =>
    if a.isEmpty || !fn b x then .ok (a ++ [x]) else .ok (a.dropLast ++ [copyAppend x b])

/-- `joinIf(xs, a, fn)`: runs the loop body over the groups of `xs`, left to
right, on the accumulator `a`. -/
def joinIf {α : Type} :
    List (List α) → List (List α) → (List α → List α → Bool) → Except Fault (List (List α))
  | [], a, _ => .ok a
  | x :: xs, a, fn =>
    match joinStep fn a x with
    | .ok a1 => joinIf xs a1 fn
    | .error e => .error e

/-- `joinIfVector(xs, fn)`: `joinIf` on an empty accumulator. -/
def joinIfVector {α : Type} (xs : List (List α)) (fn : List α → List α → Bool) :
    Except Fault (List (List α)) :=
  joinIf xs [] fn

/-- `joinUntilSize(xs, a, S)`: `joinIf` with the predicate `b.size() < S`. -/
def joinUntilSize {α : Type} (xs : List (List α)) (a : List (List α)) (S : Nat) :
    Except Fault (List (List α)) :=
  joinIf xs a (fun b _ => decide (b.length < S))

/-- `joinUntilSizeVector(xs, S)`: `joinUntilSize` on an empty accumulator. -/
def joinUntilSizeVector {α : Type} (xs : List (List α)) (S : Nat) :
    Except Fault (List (List α)) :=
  joinUntilSize xs [] S

/-- `joinValues(xs, a)`: `for x in xs: copyAppend(x, a)`. -/
def joinValues {α : Type} (xs : List (List α)) (a : List α) : List α :=
  xs.foldl (fun a x => copyAppend x a) a

/-- `joinValuesVector(xs)`: `joinValues` on an empty accumulator. -/
def joinValuesVector {α : Type} (xs : List (List α)) : List α :=
  joinValues xs []

/-! ## JOIN-AT -/

/-- `joinAt(xs, is, a)`: `for i in is: copyAppend(xs[i], a)`. -/
def joinAt {α : Type} (xs : List (List α)) : List Nat → List α → Except Fault (List α)
  | [], a => .ok a
  | i :: is, a =>
    match xs[i]? with
    | none => .error .outOfRange
    | some g => joinAt xs is (copyAppend g a)

/-- `joinAtVector(xs, is)`: `joinAt` on an empty accumulator. -/
def joinAtVector {α : Type} (xs : List (List α)) (is : List Nat) : Except Fault (List α) :=
  joinAt xs is []

/-! ## GATHER-VALUES and SCATTER-VALUES -/

/-- The loop of `gatherValues(x, is, a)` from destination position `j` on:
`for i in is: a[j++] = x[i]`. -/
def gatherValuesFrom {α : Type} (x : List α) : List Nat → Nat → List α → Except Fault (List α)
  | [], _, a => .ok a
  | i :: is, j, a =>
    match x[i]? with
    | none => .error .outOfRange
    | some v =>
      if j < a.length then gatherValuesFrom x is (j + 1) (a.set j v)
      else .error .outOfRange

/-- `gatherValues(x, is, a)`: the loop started with `j = 0`; `x` is read only,
the new value of `a` is returned. -/
def gatherValues {α : Type} (x : List α) (is : List Nat) (a : List α) : Except Fault (List α) :=
  gatherValuesFrom x is 0 a

/-- The loop of `scatterValues(x, is, a)` from source position `j` on:
`for i in is: a[i] = x[j++]`. -/
def scatterValuesFrom {α : Type} (x : List α) : List Nat → Nat → List α → Except Fault (List α)
  | [], _, a => .ok a
  | i :: is, j, a =>
    match x[j]? with
    | none => .error .outOfRange
    | some v =>
      if i < a.length then scatterValuesFrom x is (j + 1) (a.set i v)
      else .error .outOfRange

/-- `scatterValues(x, is, a)`: the loop started with `j = 0`; `x` is read only,
the new value of `a` is returned. -/
def scatterValues {α : Type} (x : List α) (is : List Nat) (a : List α) : Except Fault (List α) :=
  scatterValuesFrom x is 0 a

/-! ## REORDER: one iteration of the inner loop -/

/-- The body of the inner loop of `reorderDirty` at position `i`, run once:
`swap(x[is[i]], x[is[is[i]]]); swap(is[i], is[is[i]]);`. -/
def reorderBody {α : Type} (x : List α) (is : List Nat) (i : Nat) :
    Except Fault (List α × List Nat) :=
  match is[i]? with
  | none => .error .outOfRange
  | some j =>
    match is[j]? with
    | none => .error .outOfRange
    | some k =>
      match swapAt x j k, swapAt is i j with
      | .ok x1, .ok is1 => .ok (x1, is1)
      | _, _ => .error .outOfRange

/-! ## JOIN-AT-IF, JOIN-AT-UNTIL-SIZE, JOIN-AT-2D -/

/-- `joinAtIf(xs, is, a, fn)`: for each `i` of `is`, the loop body of `joinIf`
on the group `xs[i]`:
`auto& b = a.back(); if (a.empty() || !fn(b, xs[i])) a.push_back(xs[i]); else copyAppend(xs[i], b);`.
Both `a.back()` on an empty `a` and `xs[i]` with `i` out of range are accesses
outside a vector, with the same outcome `Fault.outOfRange`. -/
def joinAtIf {α : Type} (xs : List (List α)) (fn : List α → List α → Bool) :
    List Nat → List (List α) → Except Fault (List (List α))
  | [], a => .ok a
  | i :: is, a =>
    match xs[i]? with
    | none => .error .outOfRange
    | some g =>
      match joinStep fn a g with
      | .ok a1 => joinAtIf xs fn is a1
      | .error e => .error e

/-- `joinAtIfVector(xs, is, fn)`: `joinAtIf` on an empty accumulator. -/
def joinAtIfVector {α : Type} (xs : List (List α)) (is : List Nat)
    (fn : List α → List α → Bool) : Except Fault (List (List α)) :=
  joinAtIf xs fn is []

/-- `joinAtUntilSize(xs, is, a, N)`: `joinAtIf` with the predicate
`b.size() < N`. -/
def joinAtUntilSize {α : Type} (xs : List (List α)) (is : List Nat) (a : List (List α))
    (N : Nat) : Except Fault (List (List α)) :=
  joinAtIf xs (fun b _ => decide (b.length < N)) is a

/-- `joinAtUntilSizeVector(xs, is, N)`: `joinAtUntilSize` on an empty
accumulator. -/
def joinAtUntilSizeVector {α : Type} (xs : List (List α)) (is : List Nat) (N : Nat) :
    Except Fault (List (List α)) :=
  joinAtUntilSize xs is [] N

/-- `joinAt2d(xs, ig, a)`: `for is in ig: a.push_back(joinAtVector(xs, is))`. -/
def joinAt2d {α : Type} (xs : List (List α)) :
    List (List Nat) → List (List α) → Except Fault (List (List α))
  | [], a => .ok a
  | is :: ig, a =>
    match joinAtVector xs is with
    | .ok g => joinAt2d xs ig (a ++ [g])
    | .error e => .error e

/-- `joinAt2dVector(xs, ig)`: `joinAt2d` on an empty accumulator. -/
def joinAt2dVector {α : Type} (xs : List (List α)) (ig : List (List Nat)) :
    Except Fault (List (List α)) :=
  joinAt2d xs ig []

/-! ## The calls made to the predicate of a group-building loop

The loops below are the loops of `partitionValues`, `joinIf` and `joinAtIf`
with a second component that records, in order, the arguments of every
evaluation of `fn`. -/

/-- The loop body of `partitionValues` with the log of the calls to `fn`: once
`a.back()` has returned, `fn` is evaluated, on `(b, v)`, exactly when
`a.empty()` is false. -/
def partitionStepLog {α : Type} (fn : List α → α → Bool)
    (s : List (List α) × List (List α × α)) (v : α) :
    Except Fault (List (List α) × List (List α × α)) :=
  match s.1.getLast? with
  | none => .error .outOfRange
  | some b =>
    if s.1.isEmpty then .ok (s.1 ++ [[v]], s.2)
    else if !fn b v then .ok (s.1 ++ [[v]], s.2 ++ [(b, v)])
    else .ok (s.1.dropLast ++ [b ++ [v]], s.2 ++ [(b, v)])

/-- The loop of `partitionValues` with the log of the calls to `fn`. -/
def partitionValuesLogFrom {α : Type} (fn : List α → α → Bool) :
    List α → List (List α) × List (List α × α) →
      Except Fault (List (List α) × List (List α × α))
  | [], s => .ok s
  | v :: x, s =>
    match partitionStepLog fn s v with
    | .ok s1 => partitionValuesLogFrom fn x s1
    | .error e => .error e

/-- `partitionValues(x, a, fn)` with the log of the calls to `fn`. -/
def partitionValuesLog {α : Type} (x : List α) (a : List (List α)) (fn : List α → α → Bool) :
    Except Fault (List (List α) × List (List α × α)) :=
  partitionValuesLogFrom fn x (a, [])

/-- The loop body of `joinIf` with the log of the calls to `fn`: once
`a.back()` has returned, `fn` is evaluated, on `(b, x)`, exactly when
`a.empty()` is false. -/
def joinStepLog {α : Type} (fn : List α → List α → Bool)
    (s : List (List α) × List (List α × List α)) (x : List α) :
    Except Fault (List (List α) × List (List α × List α)) :=
  match s.1.getLast? with
  | none => .error .outOfRange
  | some b =>
    if s.1.isEmpty then .ok (s.1 ++ [x], s.2)
    else if !fn b x then .ok (s.1 ++ [x], s.2 ++ [(b, x)])
    else .ok (s.1.dropLast ++ [copyAppend x b], s.2 ++ [(b, x)])

/-- The loop of `joinIf` with the log of the calls to `fn`. -/
def joinIfLogFrom {α : Type} (fn : List α → List α → Bool) :
    List (List α) → List (List α) × List (List α × List α) →
      Except Fault (List (List α) × List (List α × List α))
  | [], s => .ok s
  | x :: xs, s =>
    match joinStepLog fn s x with
    | .ok s1 => joinIfLogFrom fn xs s1
    | .error e => .error e

/-- `joinIf(xs, a, fn)` with the log of the calls to `fn`. -/
def joinIfLog {α : Type} (xs : List (List α)) (a : List (List α))
    (fn : List α → List α → Bool) : Except Fault (List (List α) × List (List α × List α)) :=
  joinIfLogFrom fn xs (a, [])

/-- The loop of `joinAtIf` with the log of the calls to `fn`. -/
def joinAtIfLogFrom {α : Type} (xs : List (List α)) (fn : List α → List α → Bool) :
    List Nat → List (List α) × List (List α × List α) →
      Except Fault (List (List α) × List (List α × List α))
  | [], s => .ok s
  | i :: is, s =>
    match xs[i]? with
    | none => .error .outOfRange
    | some g =>
      match joinStepLog fn s g with
      | .ok s1 => joinAtIfLogFrom xs fn is s1
      | .error e => .error e

/-- `joinAtIf(xs, is, a, fn)` with the log of the calls to `fn`. -/
def joinAtIfLog {α : Type} (xs : List (List α)) (is : List Nat) (a : List (List α))
    (fn : List α → List α → Bool) : Except Fault (List (List α) × List (List α × List α)) :=
  joinAtIfLogFrom xs fn is (a, [])

/-! ## The group-building loops in the words of the specification

The specification describes the loop body of `partitionValues` and `joinIf` as
one test, "if `grouped` is empty OR `predicate(current-group, element)` is
false, open a new group; otherwise append to the current group". These
definitions follow those words; they are compared with the loops of the source
above. -/

/-- The loop body of `partitionValues` in the words of the specification: on an
empty `a`, or when `fn` rejects, a new group `[v]` is opened; otherwise `v` is
appended to the current group. -/
def partitionStepSpec {α : Type} (fn : List α → α → Bool) (a : List (List α)) (v : α) :
    List (List α) :=
  match a.getLast? with
  | none => a ++ [[v]]
  | some b => if !fn b v then a ++ [[v]] else a.dropLast ++ [b ++ [v]]

/-- The loop of `partitionValues` in the words of the specification. -/
def partitionValuesSpec {α : Type} (x : List α) (a : List (List α)) (fn : List α → α → Bool) :
    List (List α) :=
  x.foldl (partitionStepSpec fn) a

/-- The loop body of `joinIf` in the words of the specification: on an empty
`a`, or when `fn` rejects, the group `x` is pushed; otherwise its elements are
appended to the current group. -/
def joinStepSpec {α : Type} (fn : List α → List α → Bool) (a : List (List α)) (x : List α) :
    List (List α) :=
  match a.getLast? with
  | none => a ++ [x]
  | some b => if !fn b x then a ++ [x] else a.dropLast ++ [copyAppend x b]

/-- The loop of `joinIf` in the words of the specification. -/
def joinIfSpec {α : Type} (xs : List (List α)) (a : List (List α))
    (fn : List α → List α → Bool) : List (List α) :=
  xs.foldl (joinStepSpec fn) a

/-- The loop of `joinUntilSize` in the words of the specification: `joinIfSpec`
with the predicate "the current group is still shorter than the cap". -/
def joinUntilSizeSpec {α : Type} (xs : List (List α)) (a : List (List α)) (S : Nat) :
    List (List α) :=
  joinIfSpec xs a (fun b _ => decide (b.length < S))

/-! ## DUPLICATE (`src/duplicate.hxx`)

`duplicateTo` is a template over a source graph type `G` and a destination
graph type `H`, and uses them only through `forEachVertex`, `forEachEdge`,
`addVertex`, `addEdge` and `correct`. -/

/-- Modelled from the spec: the source graph container is not part of the
sources at hand; `duplicate.hxx` reads it only through
`forEachVertex(visit(id, data))` and `forEachEdge(id, visit(neighborId, weight))`,
a read-only push-style traversal in an order that the source decides. The
graph is what these two traversals offer: `vertices` in the order of
`forEachVertex`, and `edges u` in the order of `forEachEdge(u, ·)`. -/
structure Graph (K V E : Type) where
  /-- The pairs `(id, data)` that `forEachVertex` visits, in order. -/
  vertices : List (K × V)
  /-- The pairs `(neighborId, weight)` that `forEachEdge(u, ·)` visits, in order. -/
  edges : K → List (K × E)

/-- `x.forEachVertex(visit)`: `visit` is run on every offered vertex, in
order; `visit` acts on the state `s` that the visitor closure captures by
reference. -/
def Graph.forEachVertex {K V E σ : Type} (x : Graph K V E) (visit : σ → K → V → σ) (s : σ) : σ :=
  x.vertices.foldl (fun s ud => visit s ud.1 ud.2) s

/-- `x.forEachEdge(u, visit)`: `visit` is run on every offered edge of `u`, in
order. -/
def Graph.forEachEdge {K V E σ : Type} (x : Graph K V E) (u : K) (visit : σ → K → E → σ)
    (s : σ) : σ :=
  (x.edges u).foldl (fun s vw => visit s vw.1 vw.2) s

/-- Modelled from the spec: the destination graph container is not part of the
sources at hand; `duplicate.hxx` changes it only through `addVertex(id, data)`,
`addEdge(from, to, weight)` and `correct(dedupe)`. A destination of state type
`H` is these three operations. -/
structure Dest (H K V E : Type) where
  /-- The effect of `a.addVertex(u, d)` on the destination. -/
  addVertex : H → K → V → H
  /-- The effect of `a.addEdge(u, v, w)` on the destination. -/
  addEdge : H → K → K → E → H
  /-- The effect of `a.correct(unq)` on the destination. -/
  correct : H → Bool → H

/-- A mutation call issued to a destination. -/
inductive Call (K V E : Type) where
  | addVertex (u : K) (d : V)
  | addEdge (u v : K) (w : E)
  | correct (unq : Bool)
  deriving DecidableEq, Repr

/-- The destination that only records, in order, the calls it receives. -/
def recorder (K V E : Type) : Dest (List (Call K V E)) K V E :=
  Dest.mk (fun a u d => a ++ [Call.addVertex u d]) (fun a u v w => a ++ [Call.addEdge u v w])
    (fun a unq => a ++ [Call.correct unq])

/-- `duplicateTo(a, x, fv, fe, unq)`:
`x.forEachVertex([&](u, d) { if (fv(u)) a.addVertex(u, d); });`
`x.forEachVertex([&](u, d) { if (fv(u)) x.forEachEdge(u, [&](v, w) {`
`if (fv(v) && fe(u, v)) a.addEdge(u, v, w); }); });`
`a.correct(unq);`. -/
def duplicateTo {H K V E : Type} (ops : Dest H K V E) (a : H) (x : Graph K V E)
    (fv : K → Bool) (fe : K → K → Bool) (unq : Bool) : H :=
  let a1 := x.forEachVertex (fun a u d => if fv u then ops.addVertex a u d else a) a
  let a2 := x.forEachVertex
    (fun a u _ =>
      if fv u then
        x.forEachEdge u (fun a v w => if fv v && fe u v then ops.addEdge a u v w else a) a
      else a) a1
  ops.correct a2 unq

/-- The default value of the parameter `unq` of the three `duplicateTo`
overloads (`bool unq=false`). -/
def unqDefault : Bool := false

/-- The overload `duplicateTo(a, x, fv, unq)`:
`duplicateTo(a, x, fv, [](auto u, auto v) { return true; }, unq);`. -/
def duplicateToFv {H K V E : Type} (ops : Dest H K V E) (a : H) (x : Graph K V E)
    (fv : K → Bool) (unq : Bool) : H :=
  duplicateTo ops a x fv (fun _ _ => true) unq

/-- The overload `duplicateTo(a, x, unq)`:
`duplicateTo(a, x, [](auto u) { return true; }, unq);`, a call with four
arguments the last of which is a `bool`, which selects the overload
`duplicateTo(a, x, fv, unq)`. -/
def duplicateToAll {H K V E : Type} (ops : Dest H K V E) (a : H) (x : Graph K V E)
    (unq : Bool) : H :=
  duplicateToFv ops a x (fun _ => true) unq

/-- `duplicate(x, fv, fe)`: `G a; duplicateTo(a, x, fv, fe, true); return a;`
where `empty` is the default-constructed destination `G a`. -/
def duplicate {H K V E : Type} (ops : Dest H K V E) (empty : H) (x : Graph K V E)
    (fv : K → Bool) (fe : K → K → Bool) : H :=
  duplicateTo ops empty x fv fe true

/-- The overload `duplicate(x, fv)`: `G a; duplicateTo(a, x, fv, true); return a;`,
where the call with a `bool` in fourth place selects `duplicateTo(a, x, fv, unq)`. -/
def duplicateFv {H K V E : Type} (ops : Dest H K V E) (empty : H) (x : Graph K V E)
    (fv : K → Bool) : H :=
  duplicateToFv ops empty x fv true

/-- The overload `duplicate(x)`: `G a; duplicateTo(a, x, true); return a;`,
where the call with a `bool` in third place selects `duplicateTo(a, x, unq)`. -/
def duplicateAll {H K V E : Type} (ops : Dest H K V E) (empty : H) (x : Graph K V E) : H :=
  duplicateToAll ops empty x true

/-- The `addVertex` calls of the vertex pass: one per offered vertex accepted
by `fv`, in the order of the source. -/
def vertexCalls {K V E : Type} (x : Graph K V E) (fv : K → Bool) : List (Call K V E) :=
  (x.vertices.filter (fun ud => fv ud.1)).map (fun ud => Call.addVertex ud.1 ud.2)

/-- The `addEdge` calls of the edge pass: for every offered vertex `u` accepted
by `fv`, in order, one per offered edge `(v, w)` of `u` with `fv v` and
`fe u v`, in order. -/
def edgeCalls {K V E : Type} (x : Graph K V E) (fv : K → Bool) (fe : K → K → Bool) :
    List (Call K V E) :=
  ((x.vertices.filter (fun ud => fv ud.1)).map (fun ud =>
    ((x.edges ud.1).filter (fun vw => fv vw.1 && fe ud.1 vw.1)).map
      (fun vw => Call.addEdge ud.1 vw.1 vw.2))).flatten

/-- The source graph of the example of the specification: vertices `1, 2, 3`
(without data) and edges `(1,2), (2,3), (1,3)` (without weights). -/
def exampleGraph : Graph Nat Unit Unit :=
  Graph.mk [(1, ()), (2, ()), (3, ())]
    (fun u => if u = 1 then [(2, ()), (3, ())] else if u = 2 then [(3, ())] else [])

/-- Whether a call is an `addVertex`. -/
def Call.isAddVertex {K V E : Type} : Call K V E → Bool
  | .addVertex _ _ => true
  | _ => false

/-- Whether a call is an `addEdge`. -/
def Call.isAddEdge {K V E : Type} : Call K V E → Bool
  | .addEdge _ _ _ => true
  | _ => false

/-- Whether a call is a `correct`. -/
def Call.isCorrect {K V E : Type} : Call K V E → Bool
  | .correct _ => true
  | _ => false

/-! ## Measures and invariants used by the proofs -/

/-- Number of positions of an index sequence that are not fixed points. -/
def nonFixed (is : List Nat) : Nat :=
  ((Finset.range is.length).filter (fun p => is[p]? ≠ some p)).card

/-- Number of fixed points of an index sequence: positions `k` with
`is[k] = k`. -/
def fixedPoints (is : List Nat) : Nat :=
  ((Finset.range is.length).filter (fun p => is[p]? = some p)).card

/-- The invariant of `reorderDirty` on a bijection: `is` stays an injective
sequence of in-range indices, the element now at position `is[p]` is the one
that the original index sequence `is0` asked for at `p`, and the positions
before `i` are settled. -/
def ReorderInv {α : Type} (x0 : List α) (is0 : List Nat) (i : Nat) (x : List α)
    (is : List Nat) : Prop :=
  is.length = x.length ∧ x.length = x0.length ∧ (∀ v ∈ is, v < x.length) ∧
  (∀ p q v : Nat, is[p]? = some v → is[q]? = some v → p = q) ∧
  (∀ p j j0 : Nat, is[p]? = some j → is0[p]? = some j0 → x[j]? = x0[j0]?) ∧
  (∀ p : Nat, p < i → is[p]? = some p)

/-- The groups `gs` are cut where the predicate `p` dictates: no group is
empty, every element after the first of a group was accepted by `p` on the
part of the group before it, and the first element of a group that follows
another was rejected by `p` on that whole preceding group. -/
def Partitioned {α : Type} (p : List α → α → Bool) (gs : List (List α)) : Prop :=
  (∀ g ∈ gs, g ≠ []) ∧
  (∀ g ∈ gs, ∀ (n : Nat) (v : α), 0 < n → g[n]? = some v → p (g.take n) v = true) ∧
  (∀ (k : Nat) (g h : List α) (v : α), gs[k]? = some g → gs[k + 1]? = some h →
    h.head? = some v → p g v = false)

/-- A run `seg` of consecutive source groups that `joinUntilSize` with cap `S`
fuses into one group: it is not empty; when it has two groups or more, all but
its last group together are shorter than `S`; its total length is below `S`
plus the length of its last group (for a run of one group, when `0 < S`). -/
def SegOk {α : Type} (S : Nat) (seg : List (List α)) : Prop :=
  seg ≠ [] ∧
  (2 ≤ seg.length → seg.dropLast.flatten.length < S) ∧
  (2 ≤ seg.length ∨ 0 < S → ∀ l : List α, seg.getLast? = some l →
    seg.flatten.length < S + l.length)

/-- The accumulator `a` of `joinUntilSize` after the source groups `pre`: the
groups of `a` are the concatenations of the runs of a cutting `segs` of `pre`
into consecutive runs, each of them `SegOk`. -/
def Packed {α : Type} (S : Nat) (pre : List (List α)) (a : List (List α)) : Prop :=
  ∃ segs : List (List (List α)), segs.flatten = pre ∧ a = segs.map List.flatten ∧
    ∀ seg ∈ segs, SegOk S seg

/-- Every group of `a` but the last has reached the cap `S`. -/
def ClosedFull {α : Type} (S : Nat) (a : List (List α)) : Prop :=
  ∀ (k : Nat) (g : List α), a[k]? = some g → k + 1 < a.length → S ≤ g.length

/-! ## The embedding on the examples of the specification -/

example : reorder 4 ['a', 'b', 'c', 'd'] [2, 0, 3, 1] = .ok ['c', 'a', 'd', 'b'] := by decide
example : reorderDirty 4 ['a', 'b', 'c', 'd'] [2, 0, 3, 1]
    = .ok (['c', 'a', 'd', 'b'], [0, 1, 2, 3]) := by decide
example : reorderDirty 2 ['a', 'b', 'c', 'd'] [2, 0, 3, 1] = .error .outOfFuel := by decide
example : reorderDirty 9 ['a', 'b', 'c', 'd'] [2, 0, 7, 1] = .error .outOfRange := by decide
example : reorderDirty 0 ['a', 'b', 'c', 'd'] [0, 1, 2, 3]
    = .ok (['a', 'b', 'c', 'd'], [0, 1, 2, 3]) := by decide

example : gatherValues [10, 11, 12, 13] [2, 0] [0, 0, 0] = .ok [12, 10, 0] := by decide
example : scatterValues [10, 11] [2, 0] [0, 0, 0] = .ok [11, 0, 10] := by decide
example : scatterValues [10, 11, 12] [2, 0, 2] [0, 0, 0] = .ok [11, 0, 12] := by decide
example : partitionValuesVector [1, 1, 2, 2, 2, 3] (fun b v => decide (b.getLast? = some v))
    = .error .outOfRange := by decide
example : partitionValues [1, 2, 2, 2, 3] [[1]] (fun b v => decide (b.getLast? = some v))
    = .ok [[1, 1], [2, 2, 2], [3]] := by decide
example : partitionValuesSpec [1, 1, 2, 2, 2, 3] [] (fun b v => decide (b.getLast? = some v))
    = [[1, 1], [2, 2, 2], [3]] := by decide
example : joinUntilSizeVector [[1, 2], [3], [4, 5], [6]] 3 = .error .outOfRange := by decide
example : joinUntilSize [[3], [4, 5], [6]] [[1, 2]] 3 = .ok [[1, 2, 3], [4, 5, 6]] := by decide
example : joinUntilSizeSpec [[1, 2], [3], [4, 5], [6]] [] 3 = [[1, 2, 3], [4, 5, 6]] := by decide
example : joinAtVector [[10, 11], [20], [30, 31, 32]] [2, 0, 2]
    = .ok [30, 31, 32, 10, 11, 30, 31, 32] := by decide

example : reorderBody ['a', 'b', 'c'] [1, 2, 0] 0 = .ok (['a', 'c', 'b'], [2, 1, 0]) := by decide
example : joinAtIfVector [[1, 2], [3], [4, 5], [6]] [3, 1, 0] (fun b _ => decide (b.length < 2))
    = .error .outOfRange := by decide
example : joinAtIf [[1, 2], [3], [4, 5], [6]] (fun b _ => decide (b.length < 2)) [1, 0] [[6]]
    = .ok [[6, 3], [1, 2]] := by decide
example : joinAtUntilSize [[1, 2], [3], [4, 5], [6]] [1, 2, 3] [[1, 2]] 3
    = .ok [[1, 2, 3], [4, 5, 6]] := by decide
example : joinAt2dVector [[10, 11], [20], [30, 31, 32]] [[2, 0], [], [1]]
    = .ok [[30, 31, 32, 10, 11], [], [20]] := by decide
example : joinAt2dVector [[10, 11], [20]] [[0], [5]] = .error .outOfRange := by decide
example : duplicateFv (recorder Nat Unit Unit) [] exampleGraph (fun u => decide (u ≠ 2))
    = [.addVertex 1 (), .addVertex 3 (), .addEdge 1 3 (), .correct true] := by decide
example : duplicateAll (recorder Nat Unit Unit) [] exampleGraph
    = [.addVertex 1 (), .addVertex 2 (), .addVertex 3 (), .addEdge 1 2 (), .addEdge 1 3 (),
        .addEdge 2 3 (), .correct true] := by decide

example : partitionValuesLog [1, 2] [[1]] (fun b v => decide (b.getLast? = some v))
    = .ok ([[1, 1], [2]], [([1], 1), ([1, 1], 2)]) := by decide
example : joinIfLog [[2, 3], [4]] [[1]] (fun b _ => decide (b.length < 2))
    = .ok ([[1, 2, 3], [4]], [([1], [2, 3]), ([1, 2, 3], [4])]) := by decide

/-! ## Theorems: REORDER -/

theorem swapAt_ok {α : Type} (v : List α) (a b : Nat) (va vb : α)
    (ha : v[a]? = some va) (hb : v[b]? = some vb) :
    swapAt v a b = .ok ((v.set a vb).set b va) := by
  simp [swapAt, ha, hb]

theorem getElem?_swapped {α : Type} (v : List α) (a b p : Nat) (va vb : α)
    (ha : a < v.length) (hb : b < v.length) :
    ((v.set a vb).set b va)[p]? =
      if p = b then some va else if p = a then some vb else v[p]? := by
  rw [List.getElem?_set, List.getElem?_set]
  by_cases h1 : b = p
  · subst h1; simp [hb]
  · by_cases h2 : a = p
    · subst h2; simp [h1, ha, Ne.symm h1]
    · simp [h1, h2, Ne.symm h1, Ne.symm h2]

theorem nonFixed_le (is : List Nat) : nonFixed is ≤ is.length := by
  unfold nonFixed
  calc _ ≤ (Finset.range is.length).card := Finset.card_filter_le _ _
    _ = is.length := Finset.card_range _

theorem nonFixed_swap_lt (is : List Nat) (i j k : Nat)
    (hi : is[i]? = some j) (hj : is[j]? = some k) (hjk : j ≠ k) :
    nonFixed ((is.set i k).set j j) < nonFixed is := by
  have hil : i < is.length := (List.getElem?_eq_some.1 hi).1
  have hjl : j < is.length := (List.getElem?_eq_some.1 hj).1
  unfold nonFixed
  apply Finset.card_lt_card
  rw [Finset.ssubset_iff_of_subset]
  · refine ⟨j, ?_, ?_⟩
    · simp [hjl, hj, Ne.symm hjk]
    · simp [getElem?_swapped, hil, hjl]
  · intro p
    simp only [Finset.mem_filter, Finset.mem_range, List.length_set]
    rintro ⟨hp, hne⟩
    refine ⟨hp, ?_⟩
    rw [getElem?_swapped is i j p j k hil hjl] at hne
    by_cases h1 : p = j
    · simp [h1] at hne
    · by_cases h2 : p = i
      · subst h2
        rw [hi]
        intro h
        exact h1 (Option.some.inj h).symm
      · simpa [h1, h2] using hne

theorem reorder_lookups {α : Type} (x : List α) (is : List Nat) (i : Nat)
    (hlen : is.length = x.length) (hi : i < is.length) (hin : ∀ v ∈ is, v < x.length) :
    ∃ j k xj xk, is[i]? = some j ∧ is[j]? = some k ∧ x[j]? = some xj ∧ x[k]? = some xk := by
  obtain ⟨j, e1⟩ : ∃ j, is[i]? = some j := ⟨_, List.getElem?_eq_getElem hi⟩
  have hj : j < x.length := hin j (List.getElem?_mem e1)
  obtain ⟨k, e2⟩ : ∃ k, is[j]? = some k := ⟨_, List.getElem?_eq_getElem (hlen ▸ hj)⟩
  have hk : k < x.length := hin k (List.getElem?_mem e2)
  exact ⟨j, k, _, _, e1, e2, List.getElem?_eq_getElem hj, List.getElem?_eq_getElem hk⟩

/-- Loop rule for the inner loop of `reorderDirty`: an invariant `P` that
keeps every access in range and is preserved by one swap still holds when the
loop ends, the loop does end within a budget of `nonFixed is` swaps, and at
its end `is[i] = is[is[i]]`. -/
theorem reorderWhile_rule {α : Type} (i : Nat) (P : List α → List Nat → Prop)
    (hR : ∀ x is, P x is → is.length = x.length ∧ i < is.length ∧ ∀ v ∈ is, v < x.length)
    (hS : ∀ x is j k xj xk, P x is → is[i]? = some j → is[j]? = some k → j ≠ k →
      x[j]? = some xj → x[k]? = some xk →
      P ((x.set j xk).set k xj) ((is.set i k).set j j)) :
    ∀ fuel x is, P x is → nonFixed is ≤ fuel →
      ∃ x1 is1 fuel1, reorderWhile i fuel x is = .ok (x1, is1, fuel1) ∧ P x1 is1 ∧
        nonFixed is1 ≤ fuel1 ∧ fuel + nonFixed is1 ≤ fuel1 + nonFixed is ∧
        ∃ j, is1[i]? = some j ∧ is1[j]? = some j := by
  intro fuel
  induction fuel with
  | zero =>
    intro x is hP hf
    obtain ⟨hlen, hi, hin⟩ := hR x is hP
    obtain ⟨j, k, xj, xk, e1, e2, -, -⟩ := reorder_lookups x is i hlen hi hin
    by_cases hjk : j = k
    · refine ⟨x, is, 0, ?_, hP, hf, le_refl _, j, e1, ?_⟩
      · rw [reorderWhile]; simp only [e1, e2]; simp [hjk]
      · rw [e2, hjk]
    · have := nonFixed_swap_lt is i _ _ e1 e2 hjk
      omega
  | succ fuel ih =>
    intro x is hP hf
    obtain ⟨hlen, hi, hin⟩ := hR x is hP
    obtain ⟨j, k, xj, xk, e1, e2, e3, e4⟩ := reorder_lookups x is i hlen hi hin
    by_cases hjk : j = k
    · refine ⟨x, is, fuel + 1, ?_, hP, hf, le_refl _, j, e1, ?_⟩
      · rw [reorderWhile]; simp only [e1, e2]; simp [hjk]
      · rw [e2, hjk]
    · have hlt := nonFixed_swap_lt is i _ _ e1 e2 hjk
      have hP1 := hS x is _ _ _ _ hP e1 e2 hjk e3 e4
      obtain ⟨x1, is1, fuel1, hrun, hP2, hf1, hsp, hfix⟩ := ih _ _ hP1 (by omega)
      refine ⟨x1, is1, fuel1, ?_, hP2, hf1, by omega, hfix⟩
      rw [reorderWhile]
      simp only [e1, e2]
      rw [if_pos hjk]
      simp only [swapAt_ok x _ _ _ _ e3 e4, swapAt_ok is _ _ _ _ e1 e2]
      exact hrun

/-- Loop rule for the outer loop of `reorderDirty`: a family of invariants
`Q i` (one per position), each preserved by a swap at `i` and handed over to
`Q (i+1)` when the inner loop ends, holds at `N` when the outer loop ends; the
swaps made are bounded by the drop of `nonFixed`. -/
theorem reorderFor_rule {α : Type} (N : Nat) (Q : Nat → List α → List Nat → Prop)
    (hR : ∀ i x is, Q i x is → is.length = x.length ∧ x.length = N ∧ ∀ v ∈ is, v < x.length)
    (hS : ∀ i x is j k xj xk, i < N → Q i x is → is[i]? = some j → is[j]? = some k → j ≠ k →
      x[j]? = some xj → x[k]? = some xk →
      Q i ((x.set j xk).set k xj) ((is.set i k).set j j))
    (hN : ∀ i x is j, i < N → Q i x is → is[i]? = some j → is[j]? = some j → Q (i + 1) x is) :
    ∀ n i fuel x is, i + n = N → Q i x is → nonFixed is ≤ fuel →
      ∃ x1 is1 fuel1, reorderFor n i fuel x is = .ok (x1, is1, fuel1) ∧ Q N x1 is1 ∧
        fuel + nonFixed is1 ≤ fuel1 + nonFixed is := by
  intro n
  induction n with
  | zero =>
    intro i fuel x is hi hQ _
    have : i = N := by omega
    subst this
    exact ⟨x, is, fuel, by simp [reorderFor], hQ, le_refl _⟩
  | succ n ih =>
    intro i fuel x is hi hQ hf
    have hiN : i < N := by omega
    obtain ⟨x1, is1, fuel1, hrun, hQ1, hf1, hsp, j, hj1, hj2⟩ :=
      reorderWhile_rule i (Q i)
        (fun x is h => by
          obtain ⟨h1, h2, h3⟩ := hR i x is h
          exact ⟨h1, by omega, h3⟩)
        (fun x is j k xj xk h => hS i x is j k xj xk hiN h) fuel x is hQ hf
    obtain ⟨x2, is2, fuel2, hrun2, hQ2, hsp2⟩ :=
      ih (i + 1) fuel1 x1 is1 (by omega) (hN i x1 is1 j hiN hQ1 hj1 hj2) hf1
    refine ⟨x2, is2, fuel2, ?_, hQ2, by omega⟩
    rw [reorderFor, hrun]
    exact hrun2

theorem reorderInv_swap {α : Type} (x0 : List α) (is0 : List Nat) (i : Nat) (x : List α)
    (is : List Nat) (j k : Nat) (xj xk : α) (h : ReorderInv x0 is0 i x is)
    (e1 : is[i]? = some j) (e2 : is[j]? = some k) (hjk : j ≠ k)
    (e3 : x[j]? = some xj) (e4 : x[k]? = some xk) :
    ReorderInv x0 is0 i ((x.set j xk).set k xj) ((is.set i k).set j j) := by
  obtain ⟨hlen, hx0, hin, hinj, hdat, hfix⟩ := h
  have hil : i < is.length := (List.getElem?_eq_some.1 e1).1
  have hjl : j < is.length := (List.getElem?_eq_some.1 e2).1
  have hjx : j < x.length := (List.getElem?_eq_some.1 e3).1
  have hkx : k < x.length := (List.getElem?_eq_some.1 e4).1
  have hij : i ≠ j := by
    intro hij
    rw [hij] at e1
    rw [e1] at e2
    exact hjk (Option.some.inj e2)
  have gis : ∀ p, ((is.set i k).set j j)[p]? =
      if p = j then some j else if p = i then some k else is[p]? :=
    fun p => getElem?_swapped is i j p j k hil hjl
  have gx : ∀ p, ((x.set j xk).set k xj)[p]? =
      if p = k then some xj else if p = j then some xk else x[p]? :=
    fun p => getElem?_swapped x j k p xj xk hjx hkx
  refine ⟨by simp [hlen], by simp [hx0], ?_, ?_, ?_, ?_⟩
  · intro v hv
    simp only [List.length_set]
    rcases List.mem_or_eq_of_mem_set hv with hv | hv
    · rcases List.mem_or_eq_of_mem_set hv with hv | hv
      · exact hin v hv
      · exact hv ▸ hkx
    · exact hv ▸ hjx
  · intro p q v hp hq
    rw [gis] at hp hq
    by_cases hpj : p = j
    · by_cases hqj : q = j
      · rw [hpj, hqj]
      · exfalso
        rw [if_pos hpj] at hp
        rw [if_neg hqj] at hq
        have hv : v = j := (Option.some.inj hp).symm
        subst hv
        by_cases hqi : q = i
        · rw [if_pos hqi] at hq
          exact hjk (Option.some.inj hq).symm
        · rw [if_neg hqi] at hq
          exact hqi (hinj q i v hq e1)
    · rw [if_neg hpj] at hp
      by_cases hpi : p = i
      · rw [if_pos hpi] at hp
        have hv : v = k := (Option.some.inj hp).symm
        subst hv
        by_cases hqj : q = j
        · rw [if_pos hqj] at hq
          exact absurd (Option.some.inj hq) hjk
        · rw [if_neg hqj] at hq
          by_cases hqi : q = i
          · rw [hpi, hqi]
          · rw [if_neg hqi] at hq
            exact absurd (hinj q j v hq e2) hqj
      · rw [if_neg hpi] at hp
        by_cases hqj : q = j
        · rw [if_pos hqj] at hq
          have hv : v = j := (Option.some.inj hq).symm
          subst hv
          exact absurd (hinj p i v hp e1) hpi
        · rw [if_neg hqj] at hq
          by_cases hqi : q = i
          · rw [if_pos hqi] at hq
            have hv : v = k := (Option.some.inj hq).symm
            subst hv
            exact absurd (hinj p j v hp e2) hpj
          · rw [if_neg hqi] at hq
            exact hinj p q v hp hq
  · intro p j1 j0 hp hp0
    rw [gis] at hp
    rw [gx]
    by_cases hpj : p = j
    · rw [if_pos hpj] at hp
      have hv : j1 = j := (Option.some.inj hp).symm
      subst hv
      rw [if_neg hjk, if_pos rfl, ← e4]
      exact hdat p k j0 (hpj ▸ e2) hp0
    · rw [if_neg hpj] at hp
      by_cases hpi : p = i
      · rw [if_pos hpi] at hp
        have hv : j1 = k := (Option.some.inj hp).symm
        subst hv
        rw [if_pos rfl, ← e3]
        exact hdat p j j0 (hpi ▸ e1) hp0
      · rw [if_neg hpi] at hp
        have h1 : j1 ≠ k := fun hc => hpj (hinj p j k (hc ▸ hp) e2)
        have h2 : j1 ≠ j := fun hc => hpi (hinj p i j (hc ▸ hp) e1)
        rw [if_neg h1, if_neg h2]
        exact hdat p j1 j0 hp hp0
  · intro p hp
    have hpp := hfix p hp
    rw [gis]
    have hpj : p ≠ j := by
      intro hc
      rw [hc, e2] at hpp
      exact hjk (Option.some.inj hpp).symm
    have hpi : p ≠ i := by omega
    rw [if_neg hpj, if_neg hpi]
    exact hpp

theorem reorderInv_next {α : Type} (x0 : List α) (is0 : List Nat) (i : Nat) (x : List α)
    (is : List Nat) (j : Nat) (h : ReorderInv x0 is0 i x is)
    (e1 : is[i]? = some j) (e2 : is[j]? = some j) :
    ReorderInv x0 is0 (i + 1) x is := by
  obtain ⟨hlen, hx0, hin, hinj, hdat, hfix⟩ := h
  refine ⟨hlen, hx0, hin, hinj, hdat, ?_⟩
  intro p hp
  by_cases hpi : p = i
  · have : i = j := hinj i j j e1 e2
    rw [hpi, e1, ← this]
  · exact hfix p (by omega)

theorem reorderInv_init {α : Type} (x : List α) (is : List Nat)
    (hperm : is.Perm (List.range x.length)) : ReorderInv x is 0 x is := by
  have hnd : is.Nodup := hperm.nodup_iff.2 (List.nodup_range _)
  refine ⟨by simpa using hperm.length_eq, rfl, ?_, ?_, ?_, ?_⟩
  · intro v hv
    exact List.mem_range.1 (hperm.mem_iff.1 hv)
  · intro p q v hp hq
    obtain ⟨hp1, hp2⟩ := List.getElem?_eq_some.1 hp
    obtain ⟨hq1, hq2⟩ := List.getElem?_eq_some.1 hq
    exact (hnd.getElem_inj_iff).1 (hp2.trans hq2.symm)
  · intro p j j0 hp hp0
    rw [hp] at hp0
    rw [Option.some.inj hp0]
  · intro p hp
    omega

/-- What a run of `reorderDirty` on a bijection of `[0,N)` leaves behind, with
a budget of at least `N` swaps: the data reordered, and the index sequence with
every position a fixed point. -/
theorem reorderDirty_run {α : Type} (x : List α) (is : List Nat) (fuel : Nat)
    (hperm : is.Perm (List.range x.length)) (hfuel : x.length ≤ fuel) :
    ∃ x1 is1, reorderDirty fuel x is = .ok (x1, is1) ∧ x1.length = x.length ∧
      is1.length = x.length ∧ (∀ p : Nat, p < x.length → is1[p]? = some p) ∧
      (∀ i j : Nat, is[i]? = some j → x1[i]? = x[j]?) := by
  have hlen : is.length = x.length := by simpa using hperm.length_eq
  obtain ⟨x1, is1, fuel1, hrun, hQ, -⟩ :=
    reorderFor_rule x.length (ReorderInv x is)
      (fun i x1 is1 h => ⟨h.1, h.2.1, h.2.2.1⟩)
      (fun i x1 is1 j k xj xk _ h e1 e2 hjk e3 e4 =>
        reorderInv_swap x is i x1 is1 j k xj xk h e1 e2 hjk e3 e4)
      (fun i x1 is1 j _ h e1 e2 => reorderInv_next x is i x1 is1 j h e1 e2)
      x.length 0 fuel x is (by omega) (reorderInv_init x is hperm)
      (le_trans (nonFixed_le is) (by omega))
  obtain ⟨h1, h2, -, -, hdat, hfix⟩ := hQ
  refine ⟨x1, is1, ?_, h2, by omega, hfix, ?_⟩
  · simp [reorderDirty, hrun]
  · intro i j hij
    have hi : i < x.length := hlen ▸ (List.getElem?_eq_some.1 hij).1
    exact hdat i i j (hfix i hi) hij

/-- C1: for every sequence `x` of length `N` and every index sequence `is` that
is a permutation of `[0,N)`, `reorder` and `reorderDirty` (given a budget of at
least `N` swaps) return, and leave `x` with the same length and with the new
`x[i]` equal to the old `x[is[i]]` for every `i`; on `[a,b,c,d]` with
`[2,0,3,1]` the result is `[c,a,d,b]`. -/
theorem reorder_permutes :
    (∀ (α : Type) (x : List α) (is : List Nat) (fuel : Nat),
      is.Perm (List.range x.length) → x.length ≤ fuel →
      ∃ x1 is1, reorder fuel x is = .ok x1 ∧ reorderDirty fuel x is = .ok (x1, is1) ∧
        x1.length = x.length ∧ ∀ i j : Nat, is[i]? = some j → x1[i]? = x[j]?) ∧
    reorder 4 ['a', 'b', 'c', 'd'] [2, 0, 3, 1] = .ok ['c', 'a', 'd', 'b'] := by
  refine ⟨?_, by decide⟩
  intro α x is fuel hperm hfuel
  obtain ⟨x1, is1, hrun, hlen, -, -, hdat⟩ := reorderDirty_run x is fuel hperm hfuel
  exact ⟨x1, is1, by simp [reorder, hrun], hrun, hlen, hdat⟩

/-- Witness of C1 on the sequence `[10,20,30]` and the rotation `[1,2,0]`. -/
theorem reorder_permutes_witness :
    [1, 2, 0].Perm (List.range [10, 20, 30].length) ∧ [10, 20, 30].length ≤ 3 ∧
    ∃ x1 is1, reorder 3 [10, 20, 30] [1, 2, 0] = .ok x1 ∧
      reorderDirty 3 [10, 20, 30] [1, 2, 0] = .ok (x1, is1) ∧
      x1.length = [10, 20, 30].length ∧
      ∀ i j : Nat, [1, 2, 0][i]? = some j → x1[i]? = [10, 20, 30][j]? :=
  ⟨by decide, by decide, reorder_permutes.1 Nat [10, 20, 30] [1, 2, 0] 3 (by decide) (by decide)⟩

theorem reorderWhile_fixed {α : Type} (i fuel : Nat) (x : List α) (is : List Nat)
    (h : is[i]? = some i) : reorderWhile i fuel x is = .ok (x, is, fuel) := by
  rw [reorderWhile]
  simp only [h]
  simp

theorem reorderFor_range {α : Type} (x : List α) (N : Nat) :
    ∀ n i fuel, i + n = N → reorderFor n i fuel x (List.range N) = .ok (x, List.range N, fuel) := by
  intro n
  induction n with
  | zero => intro i fuel _; simp [reorderFor]
  | succ n ih =>
    intro i fuel hi
    have h : (List.range N)[i]? = some i := by
      rw [List.getElem?_range (by omega)]
    rw [reorderFor, reorderWhile_fixed i fuel x _ h]
    exact ih (i + 1) fuel (by omega)

/-- C2: on the identity index sequence `[0,1,...,N-1]`, `reorder` leaves `x`
unchanged and `reorderDirty` leaves both `x` and the index sequence unchanged;
no swap is made, so this holds for every swap budget (also zero) and the
budget comes back unspent. -/
theorem reorder_identity {α : Type} (x : List α) (fuel : Nat) :
    reorder fuel x (List.range x.length) = .ok x ∧
    reorderDirty fuel x (List.range x.length) = .ok (x, List.range x.length) ∧
    reorderFor x.length 0 fuel x (List.range x.length)
      = .ok (x, List.range x.length, fuel) := by
  have h := reorderFor_range x x.length x.length 0 fuel (by omega)
  refine ⟨?_, ?_, h⟩ <;> simp [reorder, reorderDirty, h]

/-! ## Theorems: GATHER-VALUES and SCATTER-VALUES -/

theorem gatherValuesFrom_spec {α : Type} (x : List α) :
    ∀ (is : List Nat) (j : Nat) (a : List α), j + is.length ≤ a.length →
      (∀ i ∈ is, i < x.length) →
      ∃ a1, gatherValuesFrom x is j a = .ok a1 ∧ a1.length = a.length ∧
        (∀ t i : Nat, is[t]? = some i → a1[j + t]? = x[i]?) ∧
        (∀ p : Nat, p < j ∨ j + is.length ≤ p → a1[p]? = a[p]?) := by
  intro is
  induction is with
  | nil =>
    intro j a _ _
    exact ⟨a, by simp [gatherValuesFrom], rfl, by simp, fun _ _ => rfl⟩
  | cons i is ih =>
    intro j a hlen hin
    have hi : i < x.length := hin i (List.mem_cons_self _ _)
    have hj : j < a.length := by simp at hlen; omega
    obtain ⟨a1, hrun, hl, hget, hframe⟩ := ih (j + 1) (a.set j x[i])
      (by simp at hlen ⊢; omega) (fun i1 h1 => hin i1 (List.mem_cons_of_mem _ h1))
    refine ⟨a1, ?_, by simpa using hl, ?_, ?_⟩
    · rw [gatherValuesFrom]
      simp only [List.getElem?_eq_getElem hi]
      rw [if_pos hj]
      exact hrun
    · intro t i1 ht
      cases t with
      | zero =>
        simp at ht
        subst ht
        rw [Nat.add_zero, hframe j (Or.inl (by omega)), List.getElem?_set_self hj,
          List.getElem?_eq_getElem hi]
      | succ t =>
        simp at ht
        have := hget t i1 ht
        rwa [show j + 1 + t = j + (t + 1) by omega] at this
    · intro p hp
      simp at hp
      rw [hframe p (by omega), List.getElem?_set_ne (by omega)]

/-- C3: when the destination `a` is at least as long as `is` and every index of
`is` is in range for the source `x`, `gatherValues(x, is, a)` returns; the new
`a` has the length of the old one, `a[j] = x[is[j]]` for every `j < length(is)`,
and every position `j ≥ length(is)` is unchanged. The source `x` is a read-only
argument of the embedded procedure. -/
theorem gatherValues_spec {α : Type} (x : List α) (is : List Nat) (a : List α)
    (hlen : is.length ≤ a.length) (hin : ∀ i ∈ is, i < x.length) :
    ∃ a1, gatherValues x is a = .ok a1 ∧ a1.length = a.length ∧
      (∀ j i : Nat, is[j]? = some i → a1[j]? = x[i]?) ∧
      (∀ j : Nat, is.length ≤ j → a1[j]? = a[j]?) := by
  obtain ⟨a1, hrun, hl, hget, hframe⟩ := gatherValuesFrom_spec x is 0 a (by omega) hin
  refine ⟨a1, hrun, hl, ?_, ?_⟩
  · intro j i h
    simpa using hget j i h
  · intro j h
    exact hframe j (Or.inr (by omega))

/-- Witness of C3: gathering positions `[2,0]` of `[10,11,12,13]` into a
destination of length three. -/
theorem gatherValues_spec_witness :
    [2, 0].length ≤ [7, 8, 9].length ∧ (∀ i ∈ [2, 0], i < [10, 11, 12, 13].length) ∧
    ∃ a1, gatherValues [10, 11, 12, 13] [2, 0] [7, 8, 9] = .ok a1 ∧
      a1.length = [7, 8, 9].length ∧
      (∀ j i : Nat, [2, 0][j]? = some i → a1[j]? = [10, 11, 12, 13][i]?) ∧
      (∀ j : Nat, [2, 0].length ≤ j → a1[j]? = [7, 8, 9][j]?) :=
  ⟨by decide, by decide,
    gatherValues_spec [10, 11, 12, 13] [2, 0] [7, 8, 9] (by decide) (by decide)⟩

theorem scatterValuesFrom_spec {α : Type} (x : List α) :
    ∀ (is : List Nat) (j : Nat) (a : List α), j + is.length ≤ x.length →
      (∀ i ∈ is, i < a.length) →
      ∃ a1, scatterValuesFrom x is j a = .ok a1 ∧ a1.length = a.length ∧
        (∀ k : Nat, k ∉ is → a1[k]? = a[k]?) ∧
        (∀ t k : Nat, is[t]? = some k → (∀ s : Nat, t < s → is[s]? ≠ some k) →
          a1[k]? = x[j + t]?) := by
  intro is
  induction is with
  | nil =>
    intro j a _ _
    exact ⟨a, by simp [scatterValuesFrom], rfl, fun _ _ => rfl, by simp⟩
  | cons i is ih =>
    intro j a hlen hin
    have hi : i < a.length := hin i (List.mem_cons_self _ _)
    have hj : j < x.length := by simp at hlen; omega
    obtain ⟨a1, hrun, hl, hframe, hget⟩ := ih (j + 1) (a.set i x[j])
      (by simp at hlen; omega)
      (fun i1 h1 => by simpa using hin i1 (List.mem_cons_of_mem _ h1))
    refine ⟨a1, ?_, by simpa using hl, ?_, ?_⟩
    · rw [scatterValuesFrom]
      simp only [List.getElem?_eq_getElem hj]
      rw [if_pos hi]
      exact hrun
    · intro k hk
      simp at hk
      rw [hframe k hk.2, List.getElem?_set_ne (Ne.symm hk.1)]
    · intro t k ht hlast
      cases t with
      | zero =>
        simp at ht
        subst ht
        have hni : i ∉ is := by
          intro hmem
          obtain ⟨n, hn⟩ := List.getElem?_of_mem hmem
          exact hlast (n + 1) (by omega) (by simpa using hn)
        rw [Nat.add_zero, hframe i hni, List.getElem?_set_self hi,
          List.getElem?_eq_getElem hj]
      | succ t =>
        simp at ht
        have := hget t k ht (fun s hs => by
          have := hlast (s + 1) (by omega)
          simpa using this)
        rwa [show j + 1 + t = j + (t + 1) by omega] at this

/-- In a sequence without repeats, the position of a value is its last one. -/
theorem nodup_last (is : List Nat) (hnd : is.Nodup) (j k : Nat) (h : is[j]? = some k) :
    ∀ s : Nat, j < s → is[s]? ≠ some k := by
  intro s hs hsk
  obtain ⟨h1, h2⟩ := List.getElem?_eq_some.1 h
  obtain ⟨h3, h4⟩ := List.getElem?_eq_some.1 hsk
  have := (hnd.getElem_inj_iff).1 (h2.trans h4.symm)
  omega

/-- C4: when `is` is no longer than the source `x` and every index of `is` is in
range for the destination `a`, `scatterValues(x, is, a)` returns; the new `a`
has the length of the old one; a position `k` that does not occur in `is` is
unchanged; a position `k` that occurs in `is` holds `x[j]` for the last `j`
with `is[j] = k`; so when the indices are pairwise distinct, `a[is[j]] = x[j]`
for every `j`. -/
theorem scatterValues_spec {α : Type} (x : List α) (is : List Nat) (a : List α)
    (hlen : is.length ≤ x.length) (hin : ∀ i ∈ is, i < a.length) :
    ∃ a1, scatterValues x is a = .ok a1 ∧ a1.length = a.length ∧
      (∀ k : Nat, k ∉ is → a1[k]? = a[k]?) ∧
      (∀ j k : Nat, is[j]? = some k → (∀ s : Nat, j < s → is[s]? ≠ some k) →
        a1[k]? = x[j]?) ∧
      (is.Nodup → ∀ j k : Nat, is[j]? = some k → a1[k]? = x[j]?) := by
  obtain ⟨a1, hrun, hl, hframe, hget⟩ := scatterValuesFrom_spec x is 0 a (by omega) hin
  have hget0 : ∀ j k : Nat, is[j]? = some k → (∀ s : Nat, j < s → is[s]? ≠ some k) →
      a1[k]? = x[j]? := by
    intro j k h hlast
    simpa using hget j k h hlast
  refine ⟨a1, hrun, hl, hframe, hget0, ?_⟩
  intro hnd j k h
  exact hget0 j k h (nodup_last is hnd j k h)

/-- Witness of C4: scattering `[10,11,12]` to positions `[2,0,2]` of a
destination of length three (position 2 is written twice). -/
theorem scatterValues_spec_witness :
    [2, 0, 2].length ≤ [10, 11, 12].length ∧ (∀ i ∈ [2, 0, 2], i < [7, 8, 9].length) ∧
    ∃ a1, scatterValues [10, 11, 12] [2, 0, 2] [7, 8, 9] = .ok a1 ∧
      a1.length = [7, 8, 9].length ∧
      (∀ k : Nat, k ∉ [2, 0, 2] → a1[k]? = [7, 8, 9][k]?) ∧
      (∀ j k : Nat, [2, 0, 2][j]? = some k → (∀ s : Nat, j < s → [2, 0, 2][s]? ≠ some k) →
        a1[k]? = [10, 11, 12][j]?) ∧
      ([2, 0, 2].Nodup → ∀ j k : Nat, [2, 0, 2][j]? = some k → a1[k]? = [10, 11, 12][j]?) :=
  ⟨by decide, by decide,
    scatterValues_spec [10, 11, 12] [2, 0, 2] [7, 8, 9] (by decide) (by decide)⟩

/-- C5: for a sequence `x` of length `N`, a permutation `is` of `[0,N)` and a
destination `y` of length `N`: `gatherValues(x, is, y)` returns some `y1`, and
`scatterValues(y1, is, z)` on a copy `z` of `x` returns a sequence that agrees
with `x` at every position named by `is`, and so is `x` itself. -/
theorem gather_scatter_roundtrip {α : Type} (x y : List α) (is : List Nat)
    (hperm : is.Perm (List.range x.length)) (hy : y.length = x.length) :
    ∃ y1 z1, gatherValues x is y = .ok y1 ∧ scatterValues y1 is x = .ok z1 ∧
      (∀ j k : Nat, is[j]? = some k → z1[k]? = x[k]?) ∧ z1 = x := by
  have hlen : is.length = x.length := by simpa using hperm.length_eq
  have hnd : is.Nodup := hperm.nodup_iff.2 (List.nodup_range _)
  have hin : ∀ i ∈ is, i < x.length := fun v hv => List.mem_range.1 (hperm.mem_iff.1 hv)
  obtain ⟨y1, hg, hyl, hget, -⟩ := gatherValuesFrom_spec x is 0 y (by omega) hin
  obtain ⟨z1, hs, hzl, -, hput⟩ := scatterValuesFrom_spec y1 is 0 x (by omega) hin
  have hnamed : ∀ j k : Nat, is[j]? = some k → z1[k]? = x[k]? := by
    intro j k h
    rw [hput j k h (nodup_last is hnd j k h), ← hget j k h]
  refine ⟨y1, z1, hg, hs, hnamed, ?_⟩
  apply List.ext_getElem?
  intro k
  by_cases hk : k < x.length
  · obtain ⟨j, hj⟩ := List.getElem?_of_mem (hperm.mem_iff.2 (List.mem_range.2 hk))
    exact hnamed j k hj
  · rw [List.getElem?_eq_none (by omega), List.getElem?_eq_none (by omega)]

/-- Witness of C5 on `[10,20,30]` with the rotation `[1,2,0]`. -/
theorem gather_scatter_roundtrip_witness :
    [1, 2, 0].Perm (List.range [10, 20, 30].length) ∧ [0, 0, 0].length = [10, 20, 30].length ∧
    ∃ y1 z1, gatherValues [10, 20, 30] [1, 2, 0] [0, 0, 0] = .ok y1 ∧
      scatterValues y1 [1, 2, 0] [10, 20, 30] = .ok z1 ∧
      (∀ j k : Nat, [1, 2, 0][j]? = some k → z1[k]? = [10, 20, 30][k]?) ∧
      z1 = [10, 20, 30] :=
  ⟨by decide, by decide,
    gather_scatter_roundtrip [10, 20, 30] [0, 0, 0] [1, 2, 0] (by decide) (by decide)⟩

/-! ## Theorems: PARTITION-VALUES and JOIN in the words of the specification -/

theorem joinValues_eq {α : Type} (xs : List (List α)) :
    ∀ a : List α, joinValues xs a = a ++ xs.flatten := by
  induction xs with
  | nil => intro a; simp [joinValues]
  | cons x xs ih =>
    intro a
    have := ih (copyAppend x a)
    simp only [joinValues, List.foldl_cons] at this ⊢
    rw [this]
    simp [copyAppend]

theorem joinValuesVector_eq {α : Type} (xs : List (List α)) :
    joinValuesVector xs = xs.flatten := by
  simp [joinValuesVector, joinValues_eq]

theorem size2d_eq {α : Type} (x : List (List α)) : size2d x = x.flatten.length := by
  have h : ∀ (l : List (List α)) (n : Nat),
      l.foldl (fun a v => a + size v) n = n + l.flatten.length := by
    intro l
    induction l with
    | nil => intro n; simp
    | cons v l ih =>
      intro n
      rw [List.foldl_cons, ih]
      simp [size]
      omega
  simpa [size2d] using h x 0

theorem partitionStepSpec_nil {α : Type} (fn : List α → α → Bool) (v : α) :
    partitionStepSpec fn [] v = [[v]] := by
  simp [partitionStepSpec]

theorem partitionStepSpec_concat {α : Type} (fn : List α → α → Bool) (init : List (List α))
    (b : List α) (v : α) :
    partitionStepSpec fn (init ++ [b]) v =
      if fn b v then init ++ [b ++ [v]] else init ++ [b] ++ [[v]] := by
  cases h : fn b v <;> simp [partitionStepSpec, List.getLast?_concat, List.dropLast_concat, h]

theorem joinStepSpec_nil {α : Type} (fn : List α → List α → Bool) (x : List α) :
    joinStepSpec fn [] x = [x] := by
  simp [joinStepSpec]

theorem joinStepSpec_concat {α : Type} (fn : List α → List α → Bool) (init : List (List α))
    (b : List α) (x : List α) :
    joinStepSpec fn (init ++ [b]) x =
      if fn b x then init ++ [b ++ x] else init ++ [b] ++ [x] := by
  cases h : fn b x <;>
    simp [joinStepSpec, copyAppend, List.getLast?_concat, List.dropLast_concat, h]

theorem nil_or_concat {α : Type} (a : List α) : a = [] ∨ ∃ init b, a = init ++ [b] := by
  rcases List.eq_nil_or_concat a with h | ⟨init, b, h⟩
  · exact Or.inl h
  · exact Or.inr ⟨init, b, by simpa using h⟩

theorem partitionStepSpec_flatten {α : Type} (fn : List α → α → Bool) (a : List (List α)) (v : α) :
    (partitionStepSpec fn a v).flatten = a.flatten ++ [v] := by
  rcases nil_or_concat a with rfl | ⟨init, b, rfl⟩
  · simp [partitionStepSpec_nil]
  · rw [partitionStepSpec_concat]
    split <;> simp

theorem partitionValuesSpec_flatten {α : Type} (fn : List α → α → Bool) (x : List α) :
    ∀ a : List (List α), (partitionValuesSpec x a fn).flatten = a.flatten ++ x := by
  induction x with
  | nil => intro a; simp [partitionValuesSpec]
  | cons v x ih =>
    intro a
    have := ih (partitionStepSpec fn a v)
    simp only [partitionValuesSpec, List.foldl_cons] at this ⊢
    rw [this, partitionStepSpec_flatten]
    simp

theorem joinStepSpec_flatten {α : Type} (fn : List α → List α → Bool) (a : List (List α))
    (x : List α) : (joinStepSpec fn a x).flatten = a.flatten ++ x := by
  rcases nil_or_concat a with rfl | ⟨init, b, rfl⟩
  · simp [joinStepSpec_nil]
  · rw [joinStepSpec_concat]
    split <;> simp

theorem joinIfSpec_flatten {α : Type} (fn : List α → List α → Bool) (xs : List (List α)) :
    ∀ a : List (List α), (joinIfSpec xs a fn).flatten = a.flatten ++ xs.flatten := by
  induction xs with
  | nil => intro a; simp [joinIfSpec]
  | cons x xs ih =>
    intro a
    have := ih (joinStepSpec fn a x)
    simp only [joinIfSpec, List.foldl_cons] at this ⊢
    rw [this, joinStepSpec_flatten]
    simp

theorem partitioned_nil {α : Type} (p : List α → α → Bool) : Partitioned p [] := by
  refine ⟨?_, ?_, ?_⟩ <;> simp

theorem partitioned_step {α : Type} (p : List α → α → Bool) (a : List (List α)) (v : α)
    (h : Partitioned p a) : Partitioned p (partitionStepSpec p a v) := by
  obtain ⟨h1, h2, h3⟩ := h
  rcases nil_or_concat a with rfl | ⟨init, b, rfl⟩
  · rw [partitionStepSpec_nil]
    refine ⟨by simp, ?_, by simp⟩
    intro g hg n w hn hw
    simp at hg
    subst hg
    rw [List.getElem?_eq_none (by simp; omega)] at hw
    cases hw
  · rw [partitionStepSpec_concat]
    have hb : b ≠ [] := h1 b (by simp)
    cases hp : p b v
    · -- rejected: a new group `[v]` is opened
      simp only [Bool.false_eq_true, if_false]
      refine ⟨?_, ?_, ?_⟩
      · intro g hg
        rcases List.mem_append.1 hg with hg | hg
        · exact h1 g hg
        · simp at hg; subst hg; simp
      · intro g hg n w hn hw
        rcases List.mem_append.1 hg with hg | hg
        · exact h2 g hg n w hn hw
        · simp at hg
          subst hg
          rw [List.getElem?_eq_none (by simp; omega)] at hw
          cases hw
      · intro k g h w hk hk1 hw
        by_cases hlt : k + 1 < (init ++ [b]).length
        · rw [List.getElem?_append_left (by omega)] at hk
          rw [List.getElem?_append_left hlt] at hk1
          exact h3 k g h w hk hk1 hw
        · by_cases heq : k + 1 = (init ++ [b]).length
          · have hk0 : k = init.length := by simp at heq; omega
            rw [List.getElem?_append_left (by omega)] at hk
            rw [hk0, List.getElem?_concat_length] at hk
            rw [List.getElem?_append_right (by omega), heq] at hk1
            simp at hk1
            subst hk1
            simp at hw
            subst hw
            rw [← Option.some.inj hk]
            exact hp
          · rw [List.getElem?_eq_none (by simp at hlt heq ⊢; omega)] at hk1
            cases hk1
    · -- accepted: `v` is appended to the current group `b`
      simp only [if_true]
      refine ⟨?_, ?_, ?_⟩
      · intro g hg
        rcases List.mem_append.1 hg with hg | hg
        · exact h1 g (List.mem_append_left _ hg)
        · simp at hg; subst hg; simp
      · intro g hg n w hn hw
        rcases List.mem_append.1 hg with hg | hg
        · exact h2 g (List.mem_append_left _ hg) n w hn hw
        · simp at hg
          subst hg
          by_cases hlt : n < b.length
          · rw [List.getElem?_append_left hlt] at hw
            rw [List.take_append_of_le_length (by omega)]
            exact h2 b (by simp) n w hn hw
          · by_cases heq : n = b.length
            · rw [heq, List.getElem?_concat_length] at hw
              rw [heq, List.take_left, ← Option.some.inj hw]
              exact hp
            · rw [List.getElem?_eq_none (by simp; omega)] at hw
              cases hw
      · intro k g h w hk hk1 hw
        by_cases hlt : k + 1 < init.length
        · rw [List.getElem?_append_left (by omega)] at hk
          rw [List.getElem?_append_left hlt] at hk1
          exact h3 k g h w (by rw [List.getElem?_append_left (by omega)]; exact hk)
            (by rw [List.getElem?_append_left hlt]; exact hk1) hw
        · by_cases heq : k + 1 = init.length
          · rw [List.getElem?_append_left (by omega)] at hk
            rw [heq, List.getElem?_concat_length] at hk1
            have hh : h = b ++ [v] := (Option.some.inj hk1).symm
            rw [hh, List.head?_append_of_ne_nil b hb] at hw
            exact h3 k g b w (by rw [List.getElem?_append_left (by omega)]; exact hk)
              (by rw [heq, List.getElem?_concat_length]) hw
          · rw [List.getElem?_eq_none (by simp; omega)] at hk1
            cases hk1

theorem partitioned_partitionValuesSpec {α : Type} (p : List α → α → Bool) (x : List α) :
    ∀ a : List (List α), Partitioned p a → Partitioned p (partitionValuesSpec x a p) := by
  induction x with
  | nil => intro a h; simpa [partitionValuesSpec] using h
  | cons v x ih =>
    intro a h
    have := ih (partitionStepSpec p a v) (partitioned_step p a v h)
    simpa [partitionValuesSpec] using this

theorem segOk_single {α : Type} (S : Nat) (x : List α) : SegOk S [x] := by
  refine ⟨by simp, by simp, ?_⟩
  intro h l hl
  simp at hl h
  subst hl
  simp
  omega

theorem segOk_extend {α : Type} (S : Nat) (seg : List (List α)) (x : List α)
    (hlt : seg.flatten.length < S) : SegOk S (seg ++ [x]) := by
  refine ⟨by simp, ?_, ?_⟩
  · intro _
    rw [List.dropLast_concat]
    exact hlt
  · intro _ l hl
    rw [List.getLast?_concat] at hl
    rw [← Option.some.inj hl]
    simp only [List.flatten_append, List.length_append]
    simp at hlt ⊢
    omega

theorem packed_step {α : Type} (S : Nat) (pre a : List (List α)) (x : List α)
    (h : Packed S pre a) :
    Packed S (pre ++ [x]) (joinStepSpec (fun b _ => decide (b.length < S)) a x) := by
  obtain ⟨segs, hpre, ha, hok⟩ := h
  rcases nil_or_concat segs with rfl | ⟨si, sl, rfl⟩
  · simp at hpre ha
    subst hpre ha
    rw [joinStepSpec_nil]
    refine ⟨[[x]], by simp, by simp, ?_⟩
    intro seg hseg
    simp at hseg
    subst hseg
    exact segOk_single S x
  · have ha1 : a = si.map List.flatten ++ [sl.flatten] := by simpa using ha
    rw [ha1, joinStepSpec_concat]
    by_cases hlt : sl.flatten.length < S
    · rw [if_pos (by simpa using hlt)]
      refine ⟨si ++ [sl ++ [x]], ?_, by simp, ?_⟩
      · rw [← hpre]; simp
      · intro seg hseg
        rcases List.mem_append.1 hseg with hseg | hseg
        · exact hok seg (List.mem_append_left _ hseg)
        · simp at hseg
          subst hseg
          exact segOk_extend S sl x hlt
    · rw [if_neg (by simpa using hlt)]
      refine ⟨si ++ [sl] ++ [[x]], ?_, by simp, ?_⟩
      · rw [← hpre]; simp
      · intro seg hseg
        rcases List.mem_append.1 hseg with hseg | hseg
        · exact hok seg hseg
        · simp at hseg
          subst hseg
          exact segOk_single S x

theorem packed_joinUntilSizeSpec {α : Type} (S : Nat) (xs : List (List α)) :
    ∀ pre a : List (List α), Packed S pre a → Packed S (pre ++ xs) (joinUntilSizeSpec xs a S) := by
  induction xs with
  | nil => intro pre a h; simpa [joinUntilSizeSpec, joinIfSpec] using h
  | cons x xs ih =>
    intro pre a h
    have := ih (pre ++ [x]) _ (packed_step S pre a x h)
    simpa [joinUntilSizeSpec, joinIfSpec] using this

/-! ## Theorems: JOIN-AT -/

theorem joinAt_eq {α : Type} (xs : List (List α)) :
    ∀ (is : List Nat) (a : List α), (∀ i ∈ is, i < xs.length) →
      joinAt xs is a = .ok (a ++ (is.map (fun i => xs[i]?.getD [])).flatten) := by
  intro is
  induction is with
  | nil => intro a _; simp [joinAt]
  | cons i is ih =>
    intro a hin
    have hi : i < xs.length := hin i (List.mem_cons_self _ _)
    rw [joinAt]
    simp only [List.getElem?_eq_getElem hi]
    rw [ih _ (fun i1 h1 => hin i1 (List.mem_cons_of_mem _ h1))]
    simp [copyAppend, List.getElem?_eq_getElem hi]

/-- C10: when every index of `is` is less than the number of groups of `xs`
(repeats and omissions allowed), `joinAtVector(xs, is)` returns the
concatenation `xs[is[0]] ++ xs[is[1]] ++ ...` in index order, and its length is
the sum of the lengths of the selected groups; on `[[10,11],[20],[30,31,32]]`
with `[2,0,2]` it is `[30,31,32,10,11,30,31,32]`. -/
theorem joinAt_selects :
    (∀ (α : Type) (xs : List (List α)) (is : List Nat), (∀ i ∈ is, i < xs.length) →
      ∃ r, joinAtVector xs is = .ok r ∧
        r = (is.map (fun i => xs[i]?.getD [])).flatten ∧
        r.length = (is.map (fun i => (xs[i]?.getD []).length)).sum) ∧
    joinAtVector [[10, 11], [20], [30, 31, 32]] [2, 0, 2]
      = .ok [30, 31, 32, 10, 11, 30, 31, 32] := by
  refine ⟨?_, by decide⟩
  intro α xs is hin
  refine ⟨_, by rw [joinAtVector, joinAt_eq xs is [] hin]; simp, rfl, ?_⟩
  simp [List.length_flatten, Function.comp_def]

/-- Witness of C10 on three groups with the selection `[2,0,2]`. -/
theorem joinAt_selects_witness :
    (∀ i ∈ [2, 0, 2], i < [[10, 11], [20], [30, 31, 32]].length) ∧
    ∃ r, joinAtVector [[10, 11], [20], [30, 31, 32]] [2, 0, 2] = .ok r ∧
      r = ([2, 0, 2].map (fun i => [[10, 11], [20], [30, 31, 32]][i]?.getD [])).flatten ∧
      r.length
        = ([2, 0, 2].map (fun i => ([[10, 11], [20], [30, 31, 32]][i]?.getD []).length)).sum :=
  ⟨by decide, joinAt_selects.1 Nat [[10, 11], [20], [30, 31, 32]] [2, 0, 2] (by decide)⟩

/-! ## Theorems: JOIN-AT-2D -/

theorem joinAt2d_eq {α : Type} (xs : List (List α)) :
    ∀ (ig : List (List Nat)) (a : List (List α)), (∀ is ∈ ig, ∀ i ∈ is, i < xs.length) →
      joinAt2d xs ig a
        = .ok (a ++ ig.map (fun is => (is.map (fun i => xs[i]?.getD [])).flatten)) := by
  intro ig
  induction ig with
  | nil => intro a _; simp [joinAt2d]
  | cons is ig ih =>
    intro a hin
    have his : ∀ i ∈ is, i < xs.length := hin is (List.mem_cons_self _ _)
    rw [joinAt2d, joinAtVector, joinAt_eq xs is [] his]
    simp only [List.nil_append]
    rw [ih _ (fun is1 h1 => hin is1 (List.mem_cons_of_mem _ h1))]
    simp

/-- C12: when every index of every group of `ig` is less than the number of
groups of `xs`, `joinAt2dVector(xs, ig)` returns a grouped sequence with
exactly as many groups as `ig`, whose `k`-th group is what
`joinAtVector(xs, ig[k])` returns, for every `k`; an empty index group gives an
empty destination group. -/
theorem joinAt2d_groups {α : Type} (xs : List (List α)) (ig : List (List Nat))
    (hin : ∀ is ∈ ig, ∀ i ∈ is, i < xs.length) :
    ∃ r, joinAt2dVector xs ig = .ok r ∧ r.length = ig.length ∧
      (∀ (k : Nat) (is : List Nat), ig[k]? = some is →
        ∃ g, joinAtVector xs is = .ok g ∧ r[k]? = some g) ∧
      (∀ k : Nat, ig[k]? = some [] → r[k]? = some []) := by
  have hrun := joinAt2d_eq xs ig [] hin
  rw [List.nil_append] at hrun
  have hk : ∀ (k : Nat) (is : List Nat), ig[k]? = some is →
      (ig.map (fun is => (is.map (fun i => xs[i]?.getD [])).flatten))[k]?
        = some ((is.map (fun i => xs[i]?.getD [])).flatten) := by
    intro k is h
    rw [List.getElem?_map, h]
    rfl
  refine ⟨_, hrun, by simp, ?_, ?_⟩
  · intro k is h
    refine ⟨_, ?_, hk k is h⟩
    rw [joinAtVector, joinAt_eq xs is [] (hin is (List.getElem?_mem h)), List.nil_append]
  · intro k h
    simpa using hk k [] h

/-- Witness of C12 on three groups and the index groups `[[2,0],[],[1]]`. -/
theorem joinAt2d_groups_witness :
    (∀ is ∈ [[2, 0], [], [1]], ∀ i ∈ is, i < [[10, 11], [20], [30, 31, 32]].length) ∧
    ∃ r, joinAt2dVector [[10, 11], [20], [30, 31, 32]] [[2, 0], [], [1]] = .ok r ∧
      r.length = [[2, 0], [], [1]].length ∧
      (∀ (k : Nat) (is : List Nat), [[2, 0], [], [1]][k]? = some is →
        ∃ g, joinAtVector [[10, 11], [20], [30, 31, 32]] is = .ok g ∧ r[k]? = some g) ∧
      (∀ k : Nat, [[2, 0], [], [1]][k]? = some [] → r[k]? = some []) :=
  ⟨by decide, joinAt2d_groups [[10, 11], [20], [30, 31, 32]] [[2, 0], [], [1]] (by decide)⟩

/-! ## Theorems: DUPLICATE -/

theorem foldl_record {β γ : Type} (c : β → Bool) (f : β → γ) :
    ∀ (l : List β) (a : List γ),
      l.foldl (fun a b => if c b then a ++ [f b] else a) a = a ++ (l.filter c).map f := by
  intro l
  induction l with
  | nil => intro a; simp
  | cons b l ih =>
    intro a
    rw [List.foldl_cons, ih]
    cases h : c b <;> simp [h]

theorem foldl_record_many {β γ : Type} (c : β → Bool) (g : β → List γ) :
    ∀ (l : List β) (a : List γ),
      l.foldl (fun a b => if c b then a ++ g b else a) a
        = a ++ ((l.filter c).map g).flatten := by
  intro l
  induction l with
  | nil => intro a; simp
  | cons b l ih =>
    intro a
    rw [List.foldl_cons, ih]
    cases h : c b <;> simp [h]

/-- The calls that `duplicateTo` issues to a recording destination. -/
theorem duplicateTo_calls {K V E : Type} (x : Graph K V E) (fv : K → Bool)
    (fe : K → K → Bool) (unq : Bool) (a : List (Call K V E)) :
    duplicateTo (recorder K V E) a x fv fe unq
      = a ++ vertexCalls x fv ++ edgeCalls x fv fe ++ [Call.correct unq] := by
  have h1 : x.forEachVertex
      (fun a u d => if fv u then (recorder K V E).addVertex a u d else a) a
      = a ++ vertexCalls x fv := by
    simp only [Graph.forEachVertex, recorder, vertexCalls]
    exact foldl_record (fun ud => fv ud.1) (fun ud => Call.addVertex ud.1 ud.2) x.vertices a
  have h2 : ∀ (u : K) (b : List (Call K V E)),
      x.forEachEdge u
        (fun a v w => if fv v && fe u v then (recorder K V E).addEdge a u v w else a) b
      = b ++ ((x.edges u).filter (fun vw => fv vw.1 && fe u vw.1)).map
          (fun vw => Call.addEdge u vw.1 vw.2) := by
    intro u b
    simp only [Graph.forEachEdge, recorder]
    exact foldl_record (fun vw => fv vw.1 && fe u vw.1) (fun vw => Call.addEdge u vw.1 vw.2)
      (x.edges u) b
  have h3 : ∀ b : List (Call K V E),
      x.forEachVertex
        (fun a u _ =>
          if fv u then
            x.forEachEdge u
              (fun a v w => if fv v && fe u v then (recorder K V E).addEdge a u v w else a) a
          else a) b
      = b ++ edgeCalls x fv fe := by
    intro b
    simp only [h2]
    simp only [Graph.forEachVertex, edgeCalls]
    exact foldl_record_many (fun ud => fv ud.1)
      (fun ud => ((x.edges ud.1).filter (fun vw => fv vw.1 && fe ud.1 vw.1)).map
        (fun vw => Call.addEdge ud.1 vw.1 vw.2)) x.vertices b
  simp only [duplicateTo, h1, h3]
  simp [recorder]

theorem mem_vertexCalls {K V E : Type} (x : Graph K V E) (fv : K → Bool) (u : K) (d : V) :
    Call.addVertex u d ∈ vertexCalls x fv ↔ (u, d) ∈ x.vertices ∧ fv u = true := by
  simp only [vertexCalls, List.mem_map, List.mem_filter]
  constructor
  · rintro ⟨⟨u1, d1⟩, ⟨hm, hf⟩, heq⟩
    simp only [Call.addVertex.injEq] at heq
    obtain ⟨rfl, rfl⟩ := heq
    exact ⟨hm, hf⟩
  · rintro ⟨hm, hf⟩
    exact ⟨(u, d), ⟨hm, hf⟩, rfl⟩

theorem mem_edgeCalls {K V E : Type} (x : Graph K V E) (fv : K → Bool) (fe : K → K → Bool)
    (u v : K) (w : E) :
    Call.addEdge u v w ∈ edgeCalls x fv fe ↔
      (∃ d, (u, d) ∈ x.vertices) ∧ (v, w) ∈ x.edges u ∧
        fv u = true ∧ fv v = true ∧ fe u v = true := by
  simp only [edgeCalls, List.mem_flatten, List.mem_map, List.mem_filter]
  constructor
  · rintro ⟨l, ⟨⟨u1, d1⟩, ⟨hm, hf⟩, rfl⟩, hin⟩
    simp only [List.mem_map, List.mem_filter, Bool.and_eq_true] at hin
    obtain ⟨⟨v1, w1⟩, ⟨hm1, hf1, hf2⟩, heq⟩ := hin
    simp only [Call.addEdge.injEq] at heq
    obtain ⟨rfl, rfl, rfl⟩ := heq
    exact ⟨⟨d1, hm⟩, hm1, hf, hf1, hf2⟩
  · rintro ⟨⟨d, hm⟩, hm1, hf, hf1, hf2⟩
    refine ⟨_, ⟨(u, d), ⟨hm, hf⟩, rfl⟩, ?_⟩
    simp only [List.mem_map, List.mem_filter, Bool.and_eq_true]
    exact ⟨(v, w), ⟨hm1, hf1, hf2⟩, rfl⟩

/-- C14: the calls that `duplicateTo` issues to the destination are, after
what the destination already received: one `addVertex(u, d)` for each offered
vertex `(u, d)` with `fv(u)`, in source order; then one `addEdge(u, v, w)` for
each offered edge `(v, w)` of an offered vertex `u` with `fv(u)`, `fv(v)` and
`fe(u, v)`, with its weight; then `correct`. So an `addVertex(u, d)` is issued
exactly when `(u, d)` is offered and `fv(u)`, and an `addEdge(u, v, w)` exactly
when the edge is offered and `fv(u)`, `fv(v)`, `fe(u, v)` all hold. On vertices
`1,2,3`, edges `(1,2),(2,3),(1,3)` and `fv = (id != 2)` the vertices added are
`1, 3` and the only edge added is `(1,3)`. -/
theorem duplicateTo_adds :
    (∀ (K V E : Type) (x : Graph K V E) (fv : K → Bool) (fe : K → K → Bool) (unq : Bool)
        (a : List (Call K V E)),
      duplicateTo (recorder K V E) a x fv fe unq
        = a ++ vertexCalls x fv ++ edgeCalls x fv fe ++ [Call.correct unq] ∧
      vertexCalls x fv
        = (x.vertices.filter (fun ud => fv ud.1)).map (fun ud => Call.addVertex ud.1 ud.2) ∧
      (∀ (u : K) (d : V), Call.addVertex u d ∈ vertexCalls x fv ↔
        (u, d) ∈ x.vertices ∧ fv u = true) ∧
      (∀ (u v : K) (w : E), Call.addEdge u v w ∈ edgeCalls x fv fe ↔
        (∃ d, (u, d) ∈ x.vertices) ∧ (v, w) ∈ x.edges u ∧
          fv u = true ∧ fv v = true ∧ fe u v = true)) ∧
    duplicateTo (recorder Nat Unit Unit) [] exampleGraph (fun u => decide (u ≠ 2))
        (fun _ _ => true) false
      = [.addVertex 1 (), .addVertex 3 (), .addEdge 1 3 (), .correct false] := by
  refine ⟨?_, by decide⟩
  intro K V E x fv fe unq a
  exact ⟨duplicateTo_calls x fv fe unq a, rfl, mem_vertexCalls x fv, mem_edgeCalls x fv fe⟩

/-- C15: the narrower overloads add no behaviour: `duplicateTo(a, x, fv, unq)`
is `duplicateTo(a, x, fv, always-true, unq)`, `duplicateTo(a, x, unq)` is
`duplicateTo(a, x, always-true, always-true, unq)`, and likewise for
`duplicate`; so `duplicate(x)` issues one `addVertex` for every offered vertex,
with its data, then one `addEdge` for every offered edge of every offered
vertex, with its weight, then `correct(true)`. -/
theorem duplicate_overloads {H K V E : Type} (ops : Dest H K V E) (a : H) (x : Graph K V E)
    (fv : K → Bool) (unq : Bool) :
    duplicateToFv ops a x fv unq = duplicateTo ops a x fv (fun _ _ => true) unq ∧
    duplicateToAll ops a x unq = duplicateTo ops a x (fun _ => true) (fun _ _ => true) unq ∧
    duplicateFv ops a x fv = duplicate ops a x fv (fun _ _ => true) ∧
    duplicateAll ops a x = duplicate ops a x (fun _ => true) (fun _ _ => true) ∧
    duplicateAll (recorder K V E) [] x
      = x.vertices.map (fun ud => Call.addVertex ud.1 ud.2)
        ++ (x.vertices.map (fun ud =>
            (x.edges ud.1).map (fun vw => Call.addEdge ud.1 vw.1 vw.2))).flatten
        ++ [Call.correct true] := by
  refine ⟨rfl, rfl, rfl, rfl, ?_⟩
  rw [duplicateAll, duplicateToAll, duplicateToFv, duplicateTo_calls]
  simp [vertexCalls, edgeCalls]

theorem getElem?_three {γ : Type} (vs es : List γ) (c0 : γ) (pv pe : γ → Bool)
    (hvs : ∀ c ∈ vs, pv c = true ∧ pe c = false) (hes : ∀ c ∈ es, pe c = true ∧ pv c = false)
    (h0 : pv c0 = false ∧ pe c0 = false) (i j : Nat) (ci cj : γ)
    (hi : (vs ++ es ++ [c0])[i]? = some ci) (hj : (vs ++ es ++ [c0])[j]? = some cj)
    (hci : pv ci = true) (hcj : pe cj = true) : i < j := by
  have hmem : ∀ (n : Nat) (c : γ), (vs ++ es ++ [c0])[n]? = some c → vs.length ≤ n →
      c ∈ es ∨ c = c0 := by
    intro n c hn hle
    rw [List.append_assoc, List.getElem?_append_right hle] at hn
    have := List.getElem?_mem hn
    simpa using this
  have hi1 : i < vs.length := by
    by_contra hge
    rcases hmem i ci hi (by omega) with h | h
    · have := (hes ci h).2
      rw [hci] at this
      cases this
    · rw [h, h0.1] at hci
      cases hci
  have hj1 : vs.length ≤ j := by
    by_contra hlt
    rw [List.append_assoc, List.getElem?_append_left (by omega)] at hj
    have := (hvs cj (List.getElem?_mem hj)).2
    rw [hcj] at this
    cases this
  omega

theorem vertexCalls_kind {K V E : Type} (x : Graph K V E) (fv : K → Bool) :
    ∀ c ∈ vertexCalls x fv, c.isAddVertex = true ∧ c.isAddEdge = false := by
  intro c hc
  simp only [vertexCalls, List.mem_map] at hc
  obtain ⟨ud, -, rfl⟩ := hc
  exact ⟨rfl, rfl⟩

theorem edgeCalls_kind {K V E : Type} (x : Graph K V E) (fv : K → Bool) (fe : K → K → Bool) :
    ∀ c ∈ edgeCalls x fv fe, c.isAddEdge = true ∧ c.isAddVertex = false := by
  intro c hc
  simp only [edgeCalls, List.mem_flatten, List.mem_map] at hc
  obtain ⟨l, ⟨ud, -, rfl⟩, hin⟩ := hc
  simp only [List.mem_map] at hin
  obtain ⟨vw, -, rfl⟩ := hin
  exact ⟨rfl, rfl⟩

/-- The order of the calls that `duplicateTo` issues to a recording
destination that starts empty. -/
theorem duplicateTo_order {K V E : Type} (x : Graph K V E) (fv : K → Bool)
    (fe : K → K → Bool) (unq : Bool) :
    (∃ vs es : List (Call K V E),
      duplicateTo (recorder K V E) [] x fv fe unq = vs ++ es ++ [Call.correct unq] ∧
      (∀ c ∈ vs, c.isAddVertex = true) ∧ (∀ c ∈ es, c.isAddEdge = true)) ∧
    (∀ (i j : Nat) (ci cj : Call K V E),
      (duplicateTo (recorder K V E) [] x fv fe unq)[i]? = some ci →
      (duplicateTo (recorder K V E) [] x fv fe unq)[j]? = some cj →
      ci.isAddVertex = true → cj.isAddEdge = true → i < j) ∧
    (duplicateTo (recorder K V E) [] x fv fe unq).filter Call.isCorrect = [Call.correct unq] ∧
    (duplicateTo (recorder K V E) [] x fv fe unq).getLast? = some (Call.correct unq) := by
  have hrun := duplicateTo_calls x fv fe unq []
  rw [List.nil_append] at hrun
  have hv := vertexCalls_kind x fv
  have he := edgeCalls_kind x fv fe
  refine ⟨⟨_, _, hrun, fun c hc => (hv c hc).1, fun c hc => (he c hc).1⟩, ?_, ?_, ?_⟩
  · intro i j ci cj hi hj hci hcj
    rw [hrun] at hi hj
    exact getElem?_three _ _ (Call.correct unq) Call.isAddVertex Call.isAddEdge hv he
      ⟨rfl, rfl⟩ i j ci cj
      hi hj hci hcj
  · rw [hrun, List.filter_append, List.filter_append]
    have h1 : (vertexCalls x fv).filter Call.isCorrect = [] := by
      rw [List.filter_eq_nil_iff]
      intro c hc
      simp only [vertexCalls, List.mem_map] at hc
      obtain ⟨ud, -, rfl⟩ := hc
      simp [Call.isCorrect]
    have h2 : (edgeCalls x fv fe).filter Call.isCorrect = [] := by
      rw [List.filter_eq_nil_iff]
      intro c hc
      simp only [edgeCalls, List.mem_flatten, List.mem_map] at hc
      obtain ⟨l, ⟨ud, -, rfl⟩, hin⟩ := hc
      simp only [List.mem_map] at hin
      obtain ⟨vw, -, rfl⟩ := hin
      simp [Call.isCorrect]
    rw [h1, h2]
    simp [Call.isCorrect]
  · rw [hrun, List.getLast?_concat]

/-- C16: in the sequence of calls that `duplicateTo` issues to the destination,
every `addVertex` comes before every `addEdge` (the calls are a block of
`addVertex`, then a block of `addEdge`, then `correct`), and `correct` is
called exactly once, as the last call, with the flag `unq` of the caller: the
default `false` of `duplicateTo`, and `true` in every `duplicate` overload. -/
theorem duplicateTo_call_order {K V E : Type} (x : Graph K V E) (fv : K → Bool)
    (fe : K → K → Bool) (unq : Bool) :
    ((∃ vs es : List (Call K V E),
        duplicateTo (recorder K V E) [] x fv fe unq = vs ++ es ++ [Call.correct unq] ∧
        (∀ c ∈ vs, c.isAddVertex = true) ∧ (∀ c ∈ es, c.isAddEdge = true)) ∧
      (∀ (i j : Nat) (ci cj : Call K V E),
        (duplicateTo (recorder K V E) [] x fv fe unq)[i]? = some ci →
        (duplicateTo (recorder K V E) [] x fv fe unq)[j]? = some cj →
        ci.isAddVertex = true → cj.isAddEdge = true → i < j) ∧
      (duplicateTo (recorder K V E) [] x fv fe unq).filter Call.isCorrect
        = [Call.correct unq] ∧
      (duplicateTo (recorder K V E) [] x fv fe unq).getLast? = some (Call.correct unq)) ∧
    (duplicateTo (recorder K V E) [] x fv fe unqDefault).filter Call.isCorrect
      = [Call.correct false] ∧
    (duplicateToFv (recorder K V E) [] x fv unqDefault).filter Call.isCorrect
      = [Call.correct false] ∧
    (duplicateToAll (recorder K V E) [] x unqDefault).filter Call.isCorrect
      = [Call.correct false] ∧
    (duplicate (recorder K V E) [] x fv fe).filter Call.isCorrect = [Call.correct true] ∧
    (duplicateFv (recorder K V E) [] x fv).filter Call.isCorrect = [Call.correct true] ∧
    (duplicateAll (recorder K V E) [] x).filter Call.isCorrect = [Call.correct true] := by
  refine ⟨duplicateTo_order x fv fe unq, ?_, ?_, ?_, ?_, ?_, ?_⟩
  · exact (duplicateTo_order x fv fe false).2.2.1
  · exact (duplicateTo_order x fv (fun _ _ => true) false).2.2.1
  · exact (duplicateTo_order x (fun _ => true) (fun _ _ => true) false).2.2.1
  · exact (duplicateTo_order x fv fe true).2.2.1
  · exact (duplicateTo_order x fv (fun _ _ => true) true).2.2.1
  · exact (duplicateTo_order x (fun _ => true) (fun _ _ => true) true).2.2.1

/-- Witness of C16 on the example graph: `addVertex 3` is the call at position 1
and `addEdge 1 3` the call at position 2. -/
theorem duplicateTo_call_order_witness :
    (duplicateTo (recorder Nat Unit Unit) [] exampleGraph (fun u => decide (u ≠ 2))
      (fun _ _ => true) true)[1]? = some (Call.addVertex 3 ()) ∧
    (duplicateTo (recorder Nat Unit Unit) [] exampleGraph (fun u => decide (u ≠ 2))
      (fun _ _ => true) true)[2]? = some (Call.addEdge 1 3 ()) ∧
    (Call.addVertex 3 () : Call Nat Unit Unit).isAddVertex = true ∧
    (Call.addEdge 1 3 () : Call Nat Unit Unit).isAddEdge = true ∧ 1 < 2 :=
  ⟨by decide, by decide, by decide, by decide,
    (duplicateTo_call_order exampleGraph (fun u => decide (u ≠ 2)) (fun _ _ => true) true).1.2.1
      1 2 (Call.addVertex 3 ()) (Call.addEdge 1 3 ()) (by decide) (by decide) (by decide)
      (by decide)⟩

/-! ## Theorems: the inner loop of REORDER, one iteration at a time -/

theorem reorderBody_ok {α : Type} (x : List α) (is : List Nat) (i j k : Nat) (xj xk : α)
    (e1 : is[i]? = some j) (e2 : is[j]? = some k) (e3 : x[j]? = some xj)
    (e4 : x[k]? = some xk) :
    reorderBody x is i = .ok ((x.set j xk).set k xj, (is.set i k).set j j) := by
  rw [reorderBody]
  simp only [e1, e2]
  simp only [swapAt_ok x _ _ _ _ e3 e4, swapAt_ok is _ _ _ _ e1 e2]

theorem reorderWhile_enter {α : Type} (x : List α) (is : List Nat) (i j k fuel : Nat)
    (xj xk : α) (e1 : is[i]? = some j) (e2 : is[j]? = some k) (hjk : j ≠ k)
    (e3 : x[j]? = some xj) (e4 : x[k]? = some xk) :
    reorderWhile i (fuel + 1) x is
      = reorderWhile i fuel ((x.set j xk).set k xj) ((is.set i k).set j j) := by
  rw [reorderWhile]
  simp only [e1, e2]
  rw [if_pos hjk]
  simp only [swapAt_ok x _ _ _ _ e3 e4, swapAt_ok is _ _ _ _ e1 e2]

/-- Counterexample to C17 as stated: on `x = [a,b,c]`, `is = [1,2,0]` and
`i = 0` the loop is entered (`is[0] = 1`, `is[1] = 2`); one iteration leaves the
data `[a,c,b]` (positions `1` and `2` swapped) and the index sequence `[2,1,0]`,
while swapping the data at positions `i = 0` and `is[i] = 1` would leave
`[b,a,c]`. So the iteration is not a swap of the data at `i` and `is[i]`. -/
theorem reorderBody_data_counterexample :
    reorderBody ['a', 'b', 'c'] [1, 2, 0] 0 = .ok (['a', 'c', 'b'], [2, 1, 0]) ∧
    swapAt ['a', 'b', 'c'] 0 1 = .ok ['b', 'a', 'c'] ∧
    ¬ (∀ (x1 : List Char) (is1 : List Nat),
        reorderBody ['a', 'b', 'c'] [1, 2, 0] 0 = .ok (x1, is1) →
        swapAt ['a', 'b', 'c'] 0 1 = .ok x1 ∧ swapAt [1, 2, 0] 0 1 = .ok is1) := by
  refine ⟨by decide, by decide, ?_⟩
  intro h
  have h1 := (h ['a', 'c', 'b'] [2, 1, 0] (by decide)).1
  revert h1
  decide

/-- C17, amended: an iteration of the inner loop of `reorderDirty` at position
`i`, entered when `is[i] ≠ is[is[i]]`, swaps the data elements at positions
`is[i]` and `is[is[i]]` and the index entries at positions `i` and `is[i]`,
and leaves every other data element and index entry unchanged; the loop then
goes on from that state. -/
theorem reorderBody_swaps {α : Type} (x : List α) (is : List Nat) (i j k : Nat)
    (hi : is[i]? = some j) (hj : is[j]? = some k) (hjk : j ≠ k)
    (hjx : j < x.length) (hkx : k < x.length) :
    ∃ x1 is1, reorderBody x is i = .ok (x1, is1) ∧
      swapAt x j k = .ok x1 ∧ swapAt is i j = .ok is1 ∧
      x1.length = x.length ∧ is1.length = is.length ∧
      x1[j]? = x[k]? ∧ x1[k]? = x[j]? ∧
      (∀ p : Nat, p ≠ j → p ≠ k → x1[p]? = x[p]?) ∧
      is1[i]? = is[j]? ∧ is1[j]? = is[i]? ∧
      (∀ p : Nat, p ≠ i → p ≠ j → is1[p]? = is[p]?) ∧
      (∀ fuel : Nat, reorderWhile i (fuel + 1) x is = reorderWhile i fuel x1 is1) := by
  have hil : i < is.length := (List.getElem?_eq_some.1 hi).1
  have hjl : j < is.length := (List.getElem?_eq_some.1 hj).1
  have e3 : x[j]? = some x[j] := List.getElem?_eq_getElem hjx
  have e4 : x[k]? = some x[k] := List.getElem?_eq_getElem hkx
  have hij : i ≠ j := by
    intro hij
    rw [hij] at hi
    rw [hi] at hj
    exact hjk (Option.some.inj hj)
  have gis : ∀ p, ((is.set i k).set j j)[p]? =
      if p = j then some j else if p = i then some k else is[p]? :=
    fun p => getElem?_swapped is i j p j k hil hjl
  have gx : ∀ p, ((x.set j x[k]).set k x[j])[p]? =
      if p = k then some x[j] else if p = j then some x[k] else x[p]? :=
    fun p => getElem?_swapped x j k p x[j] x[k] hjx hkx
  refine ⟨_, _, reorderBody_ok x is i j k _ _ hi hj e3 e4, swapAt_ok x _ _ _ _ e3 e4,
    swapAt_ok is _ _ _ _ hi hj, by simp, by simp, ?_, ?_, ?_, ?_, ?_, ?_, ?_⟩
  · rw [gx, if_neg hjk, if_pos rfl, e4]
  · rw [gx, if_pos rfl, e3]
  · intro p h1 h2
    rw [gx, if_neg h2, if_neg h1]
  · rw [gis, if_neg hij, if_pos rfl, hj]
  · rw [gis, if_pos rfl, hi]
  · intro p h1 h2
    rw [gis, if_neg h2, if_neg h1]
  · intro fuel
    exact reorderWhile_enter x is i j k fuel _ _ hi hj hjk e3 e4

/-- Witness of the amended C17 on `x = [a,b,c]`, `is = [1,2,0]`, `i = 0`. -/
theorem reorderBody_swaps_witness :
    [1, 2, 0][0]? = some 1 ∧ [1, 2, 0][1]? = some 2 ∧ 1 ≠ 2 ∧
    ∃ x1 is1, reorderBody ['a', 'b', 'c'] [1, 2, 0] 0 = .ok (x1, is1) ∧
      swapAt ['a', 'b', 'c'] 1 2 = .ok x1 ∧ swapAt [1, 2, 0] 0 1 = .ok is1 ∧
      x1.length = ['a', 'b', 'c'].length ∧ is1.length = [1, 2, 0].length ∧
      x1[1]? = ['a', 'b', 'c'][2]? ∧ x1[2]? = ['a', 'b', 'c'][1]? ∧
      (∀ p : Nat, p ≠ 1 → p ≠ 2 → x1[p]? = ['a', 'b', 'c'][p]?) ∧
      is1[0]? = [1, 2, 0][1]? ∧ is1[1]? = [1, 2, 0][0]? ∧
      (∀ p : Nat, p ≠ 0 → p ≠ 1 → is1[p]? = [1, 2, 0][p]?) ∧
      (∀ fuel : Nat, reorderWhile 0 (fuel + 1) ['a', 'b', 'c'] [1, 2, 0]
        = reorderWhile 0 fuel x1 is1) :=
  ⟨by decide, by decide, by decide,
    reorderBody_swaps ['a', 'b', 'c'] [1, 2, 0] 0 1 2 (by decide) (by decide) (by decide)
      (by decide) (by decide)⟩

/-! ## Theorems: termination of REORDER and the consumed index sequence -/

theorem fixedPoints_add_nonFixed (is : List Nat) : fixedPoints is + nonFixed is = is.length := by
  unfold fixedPoints nonFixed
  rw [Finset.filter_card_add_filter_neg_card_eq_card]
  exact Finset.card_range _

theorem fixedPoints_swap_lt (is : List Nat) (i j k : Nat)
    (hi : is[i]? = some j) (hj : is[j]? = some k) (hjk : j ≠ k) :
    fixedPoints is < fixedPoints ((is.set i k).set j j) := by
  have h1 := fixedPoints_add_nonFixed is
  have h2 := fixedPoints_add_nonFixed ((is.set i k).set j j)
  have h3 := nonFixed_swap_lt is i j k hi hj hjk
  simp only [List.length_set] at h2
  omega

theorem inRange_swap {α : Type} (x : List α) (is : List Nat) (i j k : Nat) (xj xk : α)
    (hin : ∀ v ∈ is, v < x.length) (hjx : j < x.length) (hkx : k < x.length) :
    ∀ v ∈ (is.set i k).set j j, v < ((x.set j xk).set k xj).length := by
  intro v hv
  simp only [List.length_set]
  rcases List.mem_or_eq_of_mem_set hv with hv | hv
  · rcases List.mem_or_eq_of_mem_set hv with hv | hv
    · exact hin v hv
    · exact hv ▸ hkx
  · exact hv ▸ hjx

/-- C18: for every sequence `x` of length `N` and every index sequence `is` of
length `N` whose values all lie in `[0,N)`, bijective or not, `reorderDirty`
returns (no access is out of range) whenever its budget of swaps is at least
`N`, and it makes at most `N` swaps; for every iteration of the inner loop
strictly increases the number of fixed points of the index sequence. -/
theorem reorderDirty_terminates {α : Type} (x : List α) (is : List Nat)
    (hlen : is.length = x.length) (hin : ∀ v ∈ is, v < x.length) :
    (∀ fuel : Nat, x.length ≤ fuel →
      ∃ x1 is1 fuel1, reorderFor x.length 0 fuel x is = .ok (x1, is1, fuel1) ∧
        reorderDirty fuel x is = .ok (x1, is1) ∧ fuel ≤ fuel1 + x.length) ∧
    (∀ (y y1 : List α) (js js1 : List Nat) (i j k : Nat),
      js[i]? = some j → js[j]? = some k → j ≠ k → reorderBody y js i = .ok (y1, js1) →
      fixedPoints js < fixedPoints js1) := by
  constructor
  · intro fuel hfuel
    obtain ⟨x1, is1, fuel1, hrun, -, hsp⟩ :=
      reorderFor_rule x.length
        (fun _ y js => js.length = y.length ∧ y.length = x.length ∧ ∀ v ∈ js, v < y.length)
        (fun _ _ _ h => h)
        (fun _ y js j k yj yk _ h _ _ _ e3 e4 =>
          ⟨by simp [h.1], by simp [h.2.1],
            inRange_swap y js _ j k yj yk h.2.2 (List.getElem?_eq_some.1 e3).1
              (List.getElem?_eq_some.1 e4).1⟩)
        (fun _ _ _ _ _ h _ _ => h)
        x.length 0 fuel x is (by omega) ⟨hlen, rfl, hin⟩
        (le_trans (nonFixed_le is) (by omega))
    refine ⟨x1, is1, fuel1, hrun, by simp [reorderDirty, hrun], ?_⟩
    have := nonFixed_le is
    omega
  · intro y y1 js js1 i j k e1 e2 hjk hrun
    rw [reorderBody] at hrun
    simp only [e1, e2] at hrun
    cases h3 : y[j]? with
    | none => simp [swapAt, h3] at hrun
    | some yj =>
      cases h4 : y[k]? with
      | none => simp [swapAt, h3, h4] at hrun
      | some yk =>
        simp only [swapAt_ok y _ _ _ _ h3 h4, swapAt_ok js _ _ _ _ e1 e2] at hrun
        have hjs : js1 = (js.set i k).set j j := by
          have := Except.ok.inj hrun
          exact (congrArg (fun r => r.2) this).symm
        rw [hjs]
        exact fixedPoints_swap_lt js i j k e1 e2 hjk

/-- Witness of C18 on an index sequence that is not a bijection, `[1,1,0]`; its
one swap, at position 2, raises the number of fixed points. -/
theorem reorderDirty_terminates_witness :
    [1, 1, 0].length = ['a', 'b', 'c'].length ∧ (∀ v ∈ [1, 1, 0], v < ['a', 'b', 'c'].length) ∧
    (∀ fuel : Nat, ['a', 'b', 'c'].length ≤ fuel →
      ∃ x1 is1 fuel1, reorderFor ['a', 'b', 'c'].length 0 fuel ['a', 'b', 'c'] [1, 1, 0]
          = .ok (x1, is1, fuel1) ∧
        reorderDirty fuel ['a', 'b', 'c'] [1, 1, 0] = .ok (x1, is1) ∧
        fuel ≤ fuel1 + ['a', 'b', 'c'].length) ∧
    reorderBody ['a', 'b', 'c'] [1, 1, 0] 2 = .ok (['b', 'a', 'c'], [0, 1, 1]) ∧
    fixedPoints [1, 1, 0] < fixedPoints [0, 1, 1] :=
  ⟨by decide, by decide,
    (reorderDirty_terminates ['a', 'b', 'c'] [1, 1, 0] (by decide) (by decide)).1,
    by decide,
    (reorderDirty_terminates ['a', 'b', 'c'] [1, 1, 0] (by decide) (by decide)).2
      ['a', 'b', 'c'] ['b', 'a', 'c'] [1, 1, 0] [0, 1, 1] 2 0 1 (by decide) (by decide)
      (by decide) (by decide)⟩

/-- C19: for every sequence `x` of length `N` and every bijection `is` of
`[0,N)`, `reorderDirty` (with a budget of at least `N` swaps) leaves the index
sequence equal to the identity: `is[i] = i` for every `i` in `[0,N)`. -/
theorem reorderDirty_consumes {α : Type} (x : List α) (is : List Nat) (fuel : Nat)
    (hperm : is.Perm (List.range x.length)) (hfuel : x.length ≤ fuel) :
    ∃ x1 is1, reorderDirty fuel x is = .ok (x1, is1) ∧ is1 = List.range x.length ∧
      ∀ i : Nat, i < x.length → is1[i]? = some i := by
  obtain ⟨x1, is1, hrun, -, hlen, hfix, -⟩ := reorderDirty_run x is fuel hperm hfuel
  refine ⟨x1, is1, hrun, ?_, hfix⟩
  apply List.ext_getElem?
  intro p
  by_cases hp : p < x.length
  · rw [hfix p hp, List.getElem?_range hp]
  · rw [List.getElem?_eq_none (by omega), List.getElem?_eq_none (by simp; omega)]

/-- Witness of C19 on `[10,20,30,40]` and the bijection `[2,0,3,1]`. -/
theorem reorderDirty_consumes_witness :
    [2, 0, 3, 1].Perm (List.range [10, 20, 30, 40].length) ∧ [10, 20, 30, 40].length ≤ 4 ∧
    ∃ x1 is1, reorderDirty 4 [10, 20, 30, 40] [2, 0, 3, 1] = .ok (x1, is1) ∧
      is1 = List.range [10, 20, 30, 40].length ∧
      ∀ i : Nat, i < [10, 20, 30, 40].length → is1[i]? = some i :=
  ⟨by decide, by decide,
    reorderDirty_consumes [10, 20, 30, 40] [2, 0, 3, 1] 4 (by decide) (by decide)⟩

/-! ## Theorems: closed groups of JOIN-UNTIL-SIZE in the words of the specification -/

theorem joinStepSpec_length_le {α : Type} (fn : List α → List α → Bool) (a : List (List α))
    (x : List α) : a.length ≤ (joinStepSpec fn a x).length := by
  rcases nil_or_concat a with rfl | ⟨init, b, rfl⟩
  · simp
  · rw [joinStepSpec_concat]
    split <;> simp

theorem joinStepSpec_frozen {α : Type} (fn : List α → List α → Bool) (a : List (List α))
    (x : List α) (k : Nat) (hk : k + 1 < a.length) : (joinStepSpec fn a x)[k]? = a[k]? := by
  rcases nil_or_concat a with rfl | ⟨init, b, rfl⟩
  · simp at hk
  · have hki : k < init.length := by simp at hk; omega
    rw [joinStepSpec_concat]
    split
    · rw [List.getElem?_append_left hki, List.getElem?_append_left hki]
    · rw [List.getElem?_append_left (by simp; omega)]

theorem joinIfSpec_frozen {α : Type} (fn : List α → List α → Bool) (xs : List (List α)) :
    ∀ (a : List (List α)) (k : Nat), k + 1 < a.length → (joinIfSpec xs a fn)[k]? = a[k]? := by
  induction xs with
  | nil => intro a k _; simp [joinIfSpec]
  | cons x xs ih =>
    intro a k hk
    have h1 := joinStepSpec_length_le fn a x
    have := ih (joinStepSpec fn a x) k (by omega)
    simp only [joinIfSpec, List.foldl_cons] at this ⊢
    rw [this, joinStepSpec_frozen fn a x k hk]

theorem closedFull_step {α : Type} (S : Nat) (a : List (List α)) (x : List α)
    (h : ClosedFull S a) : ClosedFull S (joinStepSpec (fun b _ => decide (b.length < S)) a x) := by
  rcases nil_or_concat a with rfl | ⟨init, b, rfl⟩
  · rw [joinStepSpec_nil]
    intro k g _ hk
    simp at hk
  · rw [joinStepSpec_concat]
    by_cases hlt : b.length < S
    · rw [if_pos (by simpa using hlt)]
      intro k g hg hk
      have hki : k < init.length := by simp at hk; omega
      rw [List.getElem?_append_left hki] at hg
      exact h k g (by rw [List.getElem?_append_left hki]; exact hg) (by simp; omega)
    · rw [if_neg (by simpa using hlt)]
      intro k g hg hk
      have hk1 : k < init.length + 1 := by simp at hk; omega
      rw [List.getElem?_append_left (by simp; omega)] at hg
      by_cases hki : k < init.length
      · exact h k g hg (by simp; omega)
      · have hke : k = init.length := by omega
        rw [hke, List.getElem?_concat_length] at hg
        rw [← Option.some.inj hg]
        omega

theorem closedFull_joinUntilSizeSpec {α : Type} (S : Nat) (xs : List (List α)) :
    ∀ a : List (List α), ClosedFull S a → ClosedFull S (joinUntilSizeSpec xs a S) := by
  induction xs with
  | nil => intro a h; simpa [joinUntilSizeSpec, joinIfSpec] using h
  | cons x xs ih =>
    intro a h
    have := ih _ (closedFull_step S a x h)
    simpa [joinUntilSizeSpec, joinIfSpec] using this

/-! ## Theorems: the loops of the source against the words of the specification -/

theorem partitionStep_nil {α : Type} (fn : List α → α → Bool) (v : α) :
    partitionStep fn [] v = .error .outOfRange := by
  simp [partitionStep]

theorem partitionStep_concat {α : Type} (fn : List α → α → Bool) (init : List (List α))
    (b : List α) (v : α) :
    partitionStep fn (init ++ [b]) v = .ok (partitionStepSpec fn (init ++ [b]) v) := by
  cases h : fn b v <;> simp [partitionStep, partitionStepSpec, List.getLast?_concat, h]

theorem partitionStepSpec_ne_nil {α : Type} (fn : List α → α → Bool) (a : List (List α))
    (v : α) : partitionStepSpec fn a v ≠ [] := by
  rcases nil_or_concat a with rfl | ⟨init, b, rfl⟩
  · simp [partitionStepSpec_nil]
  · rw [partitionStepSpec_concat]
    split <;> simp

/-- From a non-empty accumulator the loop of `partitionValues` returns what the
specification describes. -/
theorem partitionValues_eq_spec {α : Type} (fn : List α → α → Bool) (x : List α) :
    ∀ a : List (List α), a ≠ [] → partitionValues x a fn = .ok (partitionValuesSpec x a fn) := by
  induction x with
  | nil => intro a _; simp [partitionValues, partitionValuesSpec]
  | cons v x ih =>
    intro a ha
    rcases nil_or_concat a with rfl | ⟨init, b, rfl⟩
    · exact absurd rfl ha
    · rw [partitionValues, partitionStep_concat]
      simp only
      rw [ih _ (partitionStepSpec_ne_nil fn _ v)]
      simp [partitionValuesSpec]

/-- On an empty accumulator the first iteration of `partitionValues` faults. -/
theorem partitionValues_cons_nil {α : Type} (fn : List α → α → Bool) (v : α) (x : List α) :
    partitionValues (v :: x) [] fn = .error .outOfRange := by
  rw [partitionValues, partitionStep_nil]

theorem joinStep_nil {α : Type} (fn : List α → List α → Bool) (x : List α) :
    joinStep fn [] x = .error .outOfRange := by
  simp [joinStep]

theorem joinStep_concat {α : Type} (fn : List α → List α → Bool) (init : List (List α))
    (b : List α) (x : List α) :
    joinStep fn (init ++ [b]) x = .ok (joinStepSpec fn (init ++ [b]) x) := by
  cases h : fn b x <;> simp [joinStep, joinStepSpec, List.getLast?_concat, h]

theorem joinStepSpec_ne_nil {α : Type} (fn : List α → List α → Bool) (a : List (List α))
    (x : List α) : joinStepSpec fn a x ≠ [] := by
  rcases nil_or_concat a with rfl | ⟨init, b, rfl⟩
  · simp [joinStepSpec_nil]
  · rw [joinStepSpec_concat]
    split <;> simp

/-- From a non-empty accumulator the loop of `joinIf` returns what the
specification describes. -/
theorem joinIf_eq_spec {α : Type} (fn : List α → List α → Bool) (xs : List (List α)) :
    ∀ a : List (List α), a ≠ [] → joinIf xs a fn = .ok (joinIfSpec xs a fn) := by
  induction xs with
  | nil => intro a _; simp [joinIf, joinIfSpec]
  | cons x xs ih =>
    intro a ha
    rcases nil_or_concat a with rfl | ⟨init, b, rfl⟩
    · exact absurd rfl ha
    · rw [joinIf, joinStep_concat]
      simp only
      rw [ih _ (joinStepSpec_ne_nil fn _ x)]
      simp [joinIfSpec]

/-- On an empty accumulator the first iteration of `joinIf` faults. -/
theorem joinIf_cons_nil {α : Type} (fn : List α → List α → Bool) (x : List α)
    (xs : List (List α)) : joinIf (x :: xs) [] fn = .error .outOfRange := by
  rw [joinIf, joinStep_nil]

/-- C6 (defect of the code): `partitionValues` calls `a.back()` before it tests
`a.empty()`, so on the empty accumulator of `partitionValuesVector` the first
element of every non-empty input is an access outside the vector: on `[1]` no
grouped sequence is produced that `joinValuesVector` could turn back into
`[1]`. Past that first step the loop is as the claim says: started on the
accumulator `[[v]]`, it returns groups whose concatenation is `v :: x`. -/
theorem partitionValues_join_defect :
    Except.map joinValuesVector (partitionValuesVector [1] (fun _ _ => true))
      = .error .outOfRange ∧
    (∀ (α : Type) (p : List α → α → Bool) (v : α) (x : List α),
      partitionValuesVector (v :: x) p = .error .outOfRange) ∧
    (∀ (α : Type) (p : List α → α → Bool) (v : α) (x : List α),
      ∃ r, partitionValues x [[v]] p = .ok r ∧ joinValuesVector r = v :: x) := by
  refine ⟨by decide, ?_, ?_⟩
  · intro α p v x
    exact partitionValues_cons_nil p v x
  · intro α p v x
    refine ⟨_, partitionValues_eq_spec p x [[v]] (by simp), ?_⟩
    rw [joinValuesVector_eq, partitionValuesSpec_flatten]
    simp

/-- C7 (defect of the code): on the example `[1,1,2,2,2,3]` with the same-value
predicate, and on every non-empty input, `partitionValuesVector` faults at its
first element, because `a.back()` is called on the empty accumulator before
`a.empty()` is tested; it does not return `[[1,1],[2,2,2],[3]]`. Past that
first step the loop cuts as the claim says: started on `[[v]]` it returns
groups that are non-empty, whose later elements were accepted by `p` on the
part of the group before them, and whose first elements (after the first
group) were rejected by `p` on the preceding group. -/
theorem partitionValues_boundaries_defect :
    partitionValuesVector [1, 1, 2, 2, 2, 3] (fun b v => decide (b.getLast? = some v))
      = .error .outOfRange ∧
    (∀ (α : Type) (p : List α → α → Bool) (v : α) (x : List α),
      partitionValuesVector (v :: x) p = .error .outOfRange) ∧
    (∀ (α : Type) (p : List α → α → Bool) (v : α) (x : List α),
      ∃ r, partitionValues x [[v]] p = .ok r ∧
        (∀ g ∈ r, g ≠ []) ∧
        (∀ g ∈ r, ∀ (n : Nat) (w : α), 0 < n → g[n]? = some w → p (g.take n) w = true) ∧
        (∀ (k : Nat) (g h : List α) (w : α), r[k]? = some g → r[k + 1]? = some h →
          h.head? = some w → p g w = false)) ∧
    partitionValues [1, 2, 2, 2, 3] [[1]] (fun b v => decide (b.getLast? = some v))
      = .ok [[1, 1], [2, 2, 2], [3]] := by
  refine ⟨by decide, ?_, ?_, by decide⟩
  · intro α p v x
    exact partitionValues_cons_nil p v x
  · intro α p v x
    have h0 : Partitioned p [[v]] := by
      have := partitioned_step p [] v (partitioned_nil p)
      rwa [partitionStepSpec_nil] at this
    exact ⟨_, partitionValues_eq_spec p x [[v]] (by simp),
      partitioned_partitionValuesSpec p x [[v]] h0⟩

/-- C8 (defect of the code): `joinIf` calls `a.back()` before it tests
`a.empty()`, so `joinIfVector` and `joinUntilSizeVector`, which start on an
empty accumulator, fault at the first group of every non-empty `xs` (on
`[[1]]` for instance) and conserve nothing. Past that first step the loop is
as the claim says: started on the accumulator `[x0]`, `joinIf` and
`joinUntilSize` return groups with the elements of `x0 :: xs` in order, so with
the same `size2d`. -/
theorem joinIf_conserves_defect :
    joinIfVector [[1]] (fun _ _ => true) = .error .outOfRange ∧
    joinUntilSizeVector [[1]] 1 = .error .outOfRange ∧
    (∀ (α : Type) (p : List α → List α → Bool) (S : Nat) (x0 : List α) (xs : List (List α)),
      joinIfVector (x0 :: xs) p = .error .outOfRange ∧
      joinUntilSizeVector (x0 :: xs) S = .error .outOfRange) ∧
    (∀ (α : Type) (p : List α → List α → Bool) (S : Nat) (x0 : List α) (xs : List (List α)),
      ∃ r1 r2, joinIf xs [x0] p = .ok r1 ∧ joinUntilSize xs [x0] S = .ok r2 ∧
        joinValuesVector r1 = joinValuesVector (x0 :: xs) ∧ size2d r1 = size2d (x0 :: xs) ∧
        joinValuesVector r2 = joinValuesVector (x0 :: xs) ∧ size2d r2 = size2d (x0 :: xs)) := by
  refine ⟨by decide, by decide, ?_, ?_⟩
  · intro α p S x0 xs
    exact ⟨joinIf_cons_nil p x0 xs,
      joinIf_cons_nil (fun (b : List α) (_ : List α) => decide (b.length < S)) x0 xs⟩
  · intro α p S x0 xs
    refine ⟨_, _, joinIf_eq_spec p xs [x0] (by simp),
      joinIf_eq_spec (fun (b : List α) (_ : List α) => decide (b.length < S)) xs [x0] (by simp),
      ?_⟩
    simp [joinValuesVector_eq, size2d_eq, joinIfSpec_flatten]

/-- C9 (defect of the code): on the example `[[1,2],[3],[4,5],[6]]` with cap 3,
and on every non-empty `xs`, `joinUntilSizeVector` faults at the first group,
because `a.back()` is called on the empty accumulator before `a.empty()` is
tested; it does not return `[[1,2,3],[4,5,6]]`. Past that first step the loop
packs as the claim says: started on `[x0]` it returns the concatenations of a
cutting of `x0 :: xs` into non-empty consecutive runs, where in a run of two
groups or more all but the last are together shorter than `S`. -/
theorem joinUntilSize_soft_cap_defect :
    joinUntilSizeVector [[1, 2], [3], [4, 5], [6]] 3 = .error .outOfRange ∧
    (∀ (α : Type) (S : Nat) (x0 : List α) (xs : List (List α)),
      joinUntilSizeVector (x0 :: xs) S = .error .outOfRange) ∧
    (∀ (α : Type) (S : Nat) (x0 : List α) (xs : List (List α)),
      ∃ (r : List (List α)) (segs : List (List (List α))),
        joinUntilSize xs [x0] S = .ok r ∧ segs.flatten = x0 :: xs ∧
        r = segs.map List.flatten ∧
        ∀ seg ∈ segs, seg ≠ [] ∧
          (2 ≤ seg.length → seg.dropLast.flatten.length < S) ∧
          (2 ≤ seg.length ∨ 0 < S → ∀ l : List α, seg.getLast? = some l →
            seg.flatten.length < S + l.length)) ∧
    joinUntilSize [[3], [4, 5], [6]] [[1, 2]] 3 = .ok [[1, 2, 3], [4, 5, 6]] := by
  refine ⟨by decide, ?_, ?_, by decide⟩
  · intro α S x0 xs
    exact joinIf_cons_nil (fun (b : List α) (_ : List α) => decide (b.length < S)) x0 xs
  · intro α S x0 xs
    have h0 : Packed S [x0] [x0] :=
      ⟨[[x0]], by simp, by simp, by
        intro seg hseg
        simp at hseg
        subst hseg
        exact segOk_single S x0⟩
    obtain ⟨segs, h1, h2, h3⟩ := packed_joinUntilSizeSpec S xs [x0] [x0] h0
    exact ⟨_, segs,
      joinIf_eq_spec (fun (b : List α) (_ : List α) => decide (b.length < S)) xs [x0] (by simp),
      by simpa using h1, h2, h3⟩

/-- C20 (defect of the code): `joinUntilSizeVector` starts `joinIf` on an empty
accumulator, where `a.back()` is called before `a.empty()` is tested, so on
`[[1],[2]]` with cap 1, and on every non-empty `xs`, it faults at the first
group and returns no groups at all. Past that first step the loop is as the
claim says: started on `[x0]`, every group of the result but the last has
length at least `S`, and a group that is not the last one after a part `pre`
of the input is the group at the same position of the final result. -/
theorem joinUntilSize_closed_groups_defect :
    joinUntilSizeVector [[1], [2]] 1 = .error .outOfRange ∧
    (∀ (α : Type) (S : Nat) (x0 : List α) (xs : List (List α)),
      joinUntilSizeVector (x0 :: xs) S = .error .outOfRange) ∧
    (∀ (α : Type) (S : Nat) (x0 : List α) (xs : List (List α)),
      ∃ r, joinUntilSize xs [x0] S = .ok r ∧
        ∀ (k : Nat) (g : List α), r[k]? = some g → k + 1 < r.length → S ≤ g.length) ∧
    (∀ (α : Type) (S : Nat) (x0 : List α) (pre post : List (List α)),
      ∃ r1 r2, joinUntilSize pre [x0] S = .ok r1 ∧ joinUntilSize (pre ++ post) [x0] S = .ok r2 ∧
        ∀ k : Nat, k + 1 < r1.length → r2[k]? = r1[k]?) ∧
    joinUntilSize [[2]] [[1]] 1 = .ok [[1], [2]] := by
  refine ⟨by decide, ?_, ?_, ?_, by decide⟩
  · intro α S x0 xs
    exact joinIf_cons_nil (fun (b : List α) (_ : List α) => decide (b.length < S)) x0 xs
  · intro α S x0 xs
    refine ⟨_,
      joinIf_eq_spec (fun (b : List α) (_ : List α) => decide (b.length < S)) xs [x0] (by simp),
      ?_⟩
    exact closedFull_joinUntilSizeSpec S xs [x0] (by
      intro k g _ hk
      simp at hk)
  · intro α S x0 pre post
    refine ⟨_, _,
      joinIf_eq_spec (fun (b : List α) (_ : List α) => decide (b.length < S)) pre [x0] (by simp),
      joinIf_eq_spec (fun (b : List α) (_ : List α) => decide (b.length < S)) (pre ++ post)
        [x0] (by simp), ?_⟩
    intro k hk
    have : joinIfSpec (pre ++ post) [x0] (fun (b : List α) (_ : List α) => decide (b.length < S))
        = joinIfSpec post
            (joinIfSpec pre [x0] (fun (b : List α) (_ : List α) => decide (b.length < S)))
            (fun (b : List α) (_ : List α) => decide (b.length < S)) := by
      simp [joinIfSpec, List.foldl_append]
    rw [this]
    exact joinIfSpec_frozen _ post _ k hk

/-! ## Theorems: JOIN-AT-IF and JOIN-AT-UNTIL-SIZE against JOIN-IF and JOIN-UNTIL-SIZE -/

theorem partitionStepLog_fst {α : Type} (fn : List α → α → Bool)
    (s : List (List α) × List (List α × α)) (v : α) :
    (partitionStepLog fn s v).map Prod.fst = partitionStep fn s.1 v := by
  unfold partitionStepLog partitionStep
  cases s.1.getLast? with
  | none => rfl
  | some b =>
    cases h1 : s.1.isEmpty <;> cases h2 : fn b v <;> simp [Except.map, h2]

theorem partitionValuesLogFrom_fst {α : Type} (fn : List α → α → Bool) (x : List α) :
    ∀ s : List (List α) × List (List α × α),
      (partitionValuesLogFrom fn x s).map Prod.fst = partitionValues x s.1 fn := by
  induction x with
  | nil => intro s; rfl
  | cons v x ih =>
    intro s
    rw [partitionValuesLogFrom, partitionValues, ← partitionStepLog_fst]
    cases partitionStepLog fn s v with
    | error e => rfl
    | ok s1 => exact ih s1

theorem joinStepLog_fst {α : Type} (fn : List α → List α → Bool)
    (s : List (List α) × List (List α × List α)) (x : List α) :
    (joinStepLog fn s x).map Prod.fst = joinStep fn s.1 x := by
  unfold joinStepLog joinStep
  cases s.1.getLast? with
  | none => rfl
  | some b =>
    cases h1 : s.1.isEmpty <;> cases h2 : fn b x <;> simp [Except.map, h2]

theorem joinIfLogFrom_fst {α : Type} (fn : List α → List α → Bool) (xs : List (List α)) :
    ∀ s : List (List α) × List (List α × List α),
      (joinIfLogFrom fn xs s).map Prod.fst = joinIf xs s.1 fn := by
  induction xs with
  | nil => intro s; rfl
  | cons x xs ih =>
    intro s
    rw [joinIfLogFrom, joinIf, ← joinStepLog_fst]
    cases joinStepLog fn s x with
    | error e => rfl
    | ok s1 => exact ih s1

theorem joinAtIfLogFrom_fst {α : Type} (xs : List (List α)) (fn : List α → List α → Bool) :
    ∀ (is : List Nat) (s : List (List α) × List (List α × List α)),
      (joinAtIfLogFrom xs fn is s).map Prod.fst = joinAtIf xs fn is s.1 := by
  intro is
  induction is with
  | nil => intro s; rfl
  | cons i is ih =>
    intro s
    rw [joinAtIfLogFrom, joinAtIf]
    cases xs[i]? with
    | none => rfl
    | some g =>
      simp only
      rw [← joinStepLog_fst]
      cases joinStepLog fn s g with
      | error e => rfl
      | ok s1 => exact ih s1

/-- C13: on an empty input sequence and an empty accumulator, every
group-building operation returns no group at all: `partitionValuesVector`,
`joinIfVector`, `joinUntilSizeVector`, `joinAtIfVector`, `joinAtUntilSizeVector`
and `joinAt2dVector` return the empty grouped sequence for every predicate, cap
and source; and the predicate is never evaluated: the log of its calls, kept
by the logged loops (which compute what the loops compute), is empty. -/
theorem empty_input_no_groups {α : Type} (p : List α → α → Bool)
    (q : List α → List α → Bool) (S N : Nat) (xs : List (List α)) :
    partitionValuesVector [] p = .ok [] ∧
    joinIfVector [] q = .ok [] ∧
    joinUntilSizeVector ([] : List (List α)) S = .ok [] ∧
    joinAtIfVector xs [] q = .ok [] ∧
    joinAtUntilSizeVector xs [] N = .ok [] ∧
    joinAt2dVector xs [] = .ok [] ∧
    partitionValuesLog [] [] p = .ok ([], []) ∧
    joinIfLog [] [] q = .ok ([], []) ∧
    joinAtIfLog xs [] [] q = .ok ([], []) ∧
    (∀ (x : List α) (a : List (List α)),
      (partitionValuesLog x a p).map Prod.fst = partitionValues x a p) ∧
    (∀ ys a : List (List α), (joinIfLog ys a q).map Prod.fst = joinIf ys a q) ∧
    (∀ (is : List Nat) (a : List (List α)),
      (joinAtIfLog xs is a q).map Prod.fst = joinAtIf xs q is a) := by
  refine ⟨rfl, rfl, rfl, rfl, rfl, rfl, rfl, rfl, rfl, ?_, ?_, ?_⟩
  · intro x a
    exact partitionValuesLogFrom_fst p x (a, [])
  · intro ys a
    exact joinIfLogFrom_fst q ys (a, [])
  · intro is a
    exact joinAtIfLogFrom_fst xs q is (a, [])

end Pagerank
